import Mathlib

/-!
Verification of the Kalah search-strategy library.

This file shallowly embeds the game core (`KalahGame.py`), the heuristic
evaluator (`Kalahevaluate.py`), alpha-beta minimax (`KalahMinimax.py`),
the MCTS machinery needed for backpropagation / SHOT / SHUSS / PUCT
(`KalahMCTS.py`), the NRPA softmax/adapt functions (`NRPA.py`) and the
unbounded best-first minimax (`UNMINIMAX.py`), and proves the testable
properties stated in the specification against these definitions.

Python integers are modelled as `ℤ`/`ℕ`, Python floats as `ℚ` where the code
only ever does rational arithmetic (the evaluator's weights 1.0 / 0.7 / 0.2)
and as `ℝ` where it is genuinely real (the NRPA softmax with `math.exp`).
-/

/-- A move identifier: `some i` is the pit index `i`; `none` is the sentinel
"no move" entry that `valid_moves` returns when a side cannot move. -/
abbrev Move := Option ℕ

/-- The state of a `KalahGame`: the 14-entry board (pits 0-5 and store 6 for
player 0, pits 7-12 and store 13 for player 1), the current player and the
last pit a stone was dropped into. -/
structure KGame where
  board : List ℤ
  current_player : ℕ
  last_pit : Option ℕ
  deriving DecidableEq, Repr

/-- A state tuple as produced by `KalahGame.from_board_to_state`. -/
abbrev SKey := List ℤ × ℕ

/-- `KalahGame.__init__`: each pit starts with 4 stones, stores empty,
player 0 to move, no last pit. -/
def initGame : KGame :=
  { board := [4, 4, 4, 4, 4, 4, 0, 4, 4, 4, 4, 4, 4, 0]
    current_player := 0
    last_pit := none }

/-- `KalahGame.from_board_to_state`. -/
def from_board_to_state (g : KGame) : SKey := (g.board, g.current_player)

/-- `KalahGame.valid_moves`: the non-empty pits on the player's side, or the
sentinel `[none]` when there are none.  (An out-of-range index reads as 0,
matching the fact that only players 0 and 1 occur.) -/
def valid_moves (g : KGame) (player : ℕ) : List Move :=
  let start := player * 7
  let moves := ((List.range 6).map (fun i => start + i)).filter
    (fun i => decide (0 < g.board.getD i 0))
  if moves = [] then [none] else moves.map some

/-- One index advance of the sowing loop of `perform_move`: step cyclically
to the next pit, skipping the opponent's store `skip`.  The Python `while`
loop `continue`s when the index hits `skip` without dropping a stone; since
`(skip + 1) % 14 ≠ skip`, that happens at most once per drop, so the skip is
folded into the advance. -/
def nextIdx (skip idx : ℕ) : ℕ :=
  if (idx + 1) % 14 = skip then ((idx + 1) % 14 + 1) % 14 else (idx + 1) % 14

/-- The sowing loop of `perform_move`: drop `stones` stones one by one into
consecutive pits after `idx`, skipping the store `skip`.  Returns the final
board and the index that received the last stone. -/
def sow (skip : ℕ) : ℕ → ℕ → List ℤ → List ℤ × ℕ
  | 0, idx, b => (b, idx)
  | stones + 1, idx, b =>
    let j := nextIdx skip idx
    sow skip stones j (b.set j (b.getD j 0 + 1))

/-- `KalahGame.perform_move`.  A `none` move returns immediately.  Otherwise
the chosen pit is emptied, its stones are sown, the capture rule is applied,
and the turn passes unless the last stone landed in the mover's store
(in which case `current_player` is left as it was). -/
def perform_move (g : KGame) (move : Move) (player : ℕ) : KGame :=
  match move with
  | none => g
  | some mv =>
    let stones := g.board.getD mv 0
    let b0 := g.board.set mv 0
    let skip := if player = 1 then 6 else 13
    let res := sow skip stones.toNat mv b0
    let b1 := res.1
    let index := res.2
    let b2 :=
      if index < 6 ∧ player = 0 ∧ b1.getD index 0 = 1 ∧ 0 < b1.getD (12 - index) 0 then
        ((b1.set 6 (b1.getD 6 0 + (b1.getD index 0 + b1.getD (12 - index) 0))).set
          index 0).set (12 - index) 0
      else if 7 ≤ index ∧ index < 13 ∧ player = 1 ∧ b1.getD index 0 = 1 ∧
          0 < b1.getD (12 - index) 0 then
        ((b1.set 13 (b1.getD 13 0 + (b1.getD index 0 + b1.getD (12 - index) 0))).set
          index 0).set (12 - index) 0
      else b1
    { board := b2
      current_player :=
        if index ≠ (if player = 0 then 6 else 13) then 1 - player else g.current_player
      last_pit := some index }

/-- `KalahGame.is_terminal`: true when either side's six pits are all empty. -/
def is_terminal (g : KGame) : Bool :=
  decide ((g.board.take 6).sum = 0 ∨ ((g.board.drop 7).take 6).sum = 0)

/-- `KalahGame.result`: the signed score difference (player 0 minus player 1). -/
def result (g : KGame) : ℤ :=
  (g.board.take 7).sum - ((g.board.drop 7).take 7).sum

/-- `KalahGame.get_store`: the number of stones in the player's store. -/
def get_store (g : KGame) (player : ℕ) : ℤ :=
  if player = 0 then g.board.getD 6 0 else g.board.getD 13 0

/-- `KalahGame.get_seeds`, over `ℤ` indices because `get_opposite_pit` can
produce `-1` (Python then indexes from the end of the list). -/
def get_seeds (g : KGame) (pit : ℤ) : ℤ :=
  if 0 ≤ pit then g.board.getD pit.toNat 0
  else g.board.getD (g.board.length - (-pit).toNat) 0

/-- `KalahGame.get_opposite_pit`.  The source's `None` branch is guarded by
the vacuous test `ending_pit == 6 and ending_pit == 13`, so the result is
always `12 - ending_pit` (which is `-1` for pit 13). -/
def get_opposite_pit (ending_pit : ℕ) : ℤ := 12 - (ending_pit : ℤ)

/-- `KalahGame.is_on_player_side`.  A missing last pit would raise a
`TypeError` in Python; it is modelled as `false` (no capture counted). -/
def is_on_player_side (ending_pit : Option ℕ) (player : ℕ) : Bool :=
  match ending_pit with
  | none => false
  | some ep => if player = 0 then decide (ep ≤ 6) else decide (7 ≤ ep ∧ ep ≤ 13)

/-- `Kalahevaluate.count_extra_moves`: the number of the player's valid moves
after which the current player is still that player. -/
def count_extra_moves (g : KGame) (player : ℕ) : ℕ :=
  ((valid_moves g player).filter
    (fun mv => decide ((perform_move g mv player).current_player = player))).length

/-- `Kalahevaluate.count_potential_captures`: the number of the player's
valid moves whose last stone lands on the player's side in a pit now holding
exactly one seed, with a non-empty opposite pit. -/
def count_potential_captures (g : KGame) (player : ℕ) : ℕ :=
  ((valid_moves g player).filter (fun mv =>
    let ng := perform_move g mv player
    is_on_player_side ng.last_pit player &&
      decide (get_seeds ng ((ng.last_pit.getD 0 : ℕ) : ℤ) = 1) &&
      decide (0 < get_seeds ng (get_opposite_pit (ng.last_pit.getD 0))))).length

/-- `Kalahevaluate.evaluate` with its default weights
`weight1 = 1.0`, `weight2 = 0.7`, `weight3 = 0.2` (the only ones used). -/
def evaluate (g : KGame) (player : ℕ) : ℚ :=
  let opponent := 1 - player
  let store_diff : ℤ := get_store g player - get_store g opponent
  let extra_moves_diff : ℤ :=
    (count_extra_moves g player : ℤ) - (count_extra_moves g opponent : ℤ)
  let capture_diff : ℤ :=
    (count_potential_captures g player : ℤ) - (count_potential_captures g opponent : ℤ)
  1 * (store_diff : ℚ) + 7 / 10 * (extra_moves_diff : ℚ) + 2 / 10 * (capture_diff : ℚ)

/-- States reachable from the initial position by performing valid moves of
the current player. -/
inductive Reachable : KGame → Prop
  | init : Reachable initGame
  | step (g : KGame) (mv : Move) (h : Reachable g)
      (hm : mv ∈ valid_moves g g.current_player) :
      Reachable (perform_move g mv g.current_player)

/-- Scores as the alpha-beta code manipulates them: rational evaluator values
extended with the two infinities used for `alpha`, `beta`, `max_eval` and
`min_eval` (`float('inf')` / `-float('inf')`). -/
abbrev EV := WithBot (WithTop ℚ)

/-- Injection of a rational score into the extended score type. -/
def toEV (q : ℚ) : EV := ((q : WithTop ℚ) : EV)

/-- The evaluator as seen by the alpha-beta search. -/
def evalEV (g : KGame) (p : ℕ) : EV := toEV (evaluate g p)

/-- The maximizing branch of `minimax`: fold over the moves, keeping the
running `max_eval` / `best_move`, raising `alpha`, and breaking out of the
loop as soon as `beta <= alpha`.  The recursive search on the child is the
parameter `f` (instantiated with `minimax` at the next depth). -/
def abMaxLoop (f : KGame → EV → EV → EV × Option Move) (g : KGame) :
    List Move → EV → Option Move → EV → EV → EV × Option Move
  | [], max_eval, best_move, _, _ => (max_eval, best_move)
  | mv :: rest, max_eval, best_move, alpha, beta =>
    let es := (f (perform_move g mv g.current_player) alpha beta).1
    let max2 := if max_eval < es then es else max_eval
    let best2 := if max_eval < es then some mv else best_move
    let alpha2 := max alpha es
    if beta ≤ alpha2 then (max2, best2)
    else abMaxLoop f g rest max2 best2 alpha2 beta

/-- The minimizing branch of `minimax`, dual to `abMaxLoop`: lowers `beta`
and breaks as soon as `beta <= alpha`. -/
def abMinLoop (f : KGame → EV → EV → EV × Option Move) (g : KGame) :
    List Move → EV → Option Move → EV → EV → EV × Option Move
  | [], min_eval, best_move, _, _ => (min_eval, best_move)
  | mv :: rest, min_eval, best_move, alpha, beta =>
    let es := (f (perform_move g mv g.current_player) alpha beta).1
    let min2 := if es < min_eval then es else min_eval
    let best2 := if es < min_eval then some mv else best_move
    let beta2 := min beta es
    if beta2 ≤ alpha then (min2, best2)
    else abMinLoop f g rest min2 best2 alpha beta2

/-- `KalahMinimax.minimax`: depth-bounded minimax with alpha-beta pruning,
returning the score and the best move.  At depth 0 or at a terminal state it
returns the heuristic evaluation for `minimax_player`; otherwise it maximizes
when the side to move is the optimizing player and minimizes otherwise. -/
def minimax : ℕ → KGame → EV → EV → ℕ → EV × Option Move
  | 0, g, _, _, p => (evalEV g p, none)
  | d + 1, g, alpha, beta, p =>
    if is_terminal g then (evalEV g p, none)
    else if g.current_player = p then
      abMaxLoop (fun g2 a b => minimax d g2 a b p) g
        (valid_moves g g.current_player) ⊥ none alpha beta
    else
      abMinLoop (fun g2 a b => minimax d g2 a b p) g
        (valid_moves g g.current_player) ⊤ none alpha beta

/-- Modelled from the spec: a brute-force full-width minimax search of the
same state to the same depth with the same evaluator at the leaves, with no
pruning — the reference point of the alpha-beta equivalence property. -/
def minimaxFull : ℕ → KGame → ℕ → EV
  | 0, g, p => evalEV g p
  | d + 1, g, p =>
    if is_terminal g then evalEV g p
    else if g.current_player = p then
      ((valid_moves g g.current_player).map
        (fun mv => minimaxFull d (perform_move g mv g.current_player) p)).foldl max ⊥
    else
      ((valid_moves g g.current_player).map
        (fun mv => minimaxFull d (perform_move g mv g.current_player) p)).foldl min ⊤

/-- The statistics of an `MCTSNode` that backpropagation touches: the node's
player, its visit and value accumulators, and the RAVE tables (Python
`defaultdict`s, modelled as total functions defaulting to 0). -/
structure BPNode where
  player : ℕ
  visits : ℕ
  value : ℚ
  rave_visits : Move → ℕ
  rave_value : Move → ℚ

instance : Inhabited BPNode := ⟨⟨0, 0, 0, fun _ => 0, fun _ => 0⟩⟩

/-- The per-node update of `MCTSNode.backpropagate`: bump the visit count,
add the reward to the value, and (when RAVE is on) bump the RAVE counters of
every visited move.  The source updates both RAVE tables in one loop over
`visited_moves`; the tables are independent, so two folds are equivalent. -/
def bp_update (n : BPNode) (reward : ℚ) (visited_moves : List Move)
    (use_rave : Bool) : BPNode :=
  let n1 := { n with visits := n.visits + 1, value := n.value + reward }
  if use_rave then
    { n1 with
      rave_visits := visited_moves.foldl
        (fun f mv m => if m = mv then f m + 1 else f m) n1.rave_visits
      rave_value := visited_moves.foldl
        (fun f mv m => if m = mv then f m + reward else f m) n1.rave_value }
  else n1

/-- `MCTSNode.backpropagate`, modelled on the chain of ancestors: `path` is
the node the call starts at, followed by its parent, grandparent, … up to the
root (the Python recursion follows `self.parent`).  The reward is kept as is
when the parent has the same player and negated when the player changes. -/
def backpropagate (use_rave : Bool) (reward : ℚ) (visited_moves : List Move) :
    List BPNode → List BPNode
  | [] => []
  | n :: rest =>
    let n1 := bp_update n reward visited_moves use_rave
    match rest with
    | [] => [n1]
    | p :: rest2 =>
      if p.player = n.player then
        n1 :: backpropagate use_rave reward visited_moves (p :: rest2)
      else
        n1 :: backpropagate use_rave (-reward) visited_moves (p :: rest2)

/-- Concrete three-node ancestor chain for exercising backpropagation:
the two lower nodes share a player (an extra-turn chain), the root differs. -/
def bpPath : List BPNode :=
  [⟨0, 2, 5, fun _ => 0, fun _ => 0⟩,
   ⟨0, 3, 1, fun _ => 0, fun _ => 0⟩,
   ⟨1, 7, 2, fun _ => 0, fun _ => 0⟩]

/-- The visit/value statistics of one SHOT/SHUSS candidate root child
(`MCTSNode.visits` and `MCTSNode.value`; fresh nodes start at 0). -/
structure NodeStats where
  visits : ℕ
  value : ℚ

instance : Inhabited NodeStats := ⟨⟨0, 0⟩⟩

/-- The ranking key of `run_shot`: average value `value / (visits + 1e-4)`. -/
def shot_score (st : NodeStats) : ℚ := st.value / ((st.visits : ℚ) + 1 / 10000)

/-- The halving loop of `KalahMCTS.run_shot`.  The random playout phase
(`tree_policy` / `rollout` / `backpropagate`) is abstracted by `oracle`,
which yields each surviving candidate's statistics after the given round —
the claims proved below hold for every outcome of the randomness.  The round
counter (absent from the source, which only returns the move) instruments
the loop so the termination bound can be stated. -/
def shotLoop (oracle : ℕ → Move → NodeStats) (round : ℕ) (k : ℕ)
    (move_nodes : List (Move × NodeStats)) : List (Move × NodeStats) × ℕ :=
  if k ≤ 1 then (move_nodes, round)
  else
    let simulated := move_nodes.map (fun pr => (pr.1, oracle round pr.1))
    let sorted := simulated.mergeSort
      (fun a b => decide (shot_score b.2 ≤ shot_score a.2))
    let k2 := k / 2
    shotLoop oracle (round + 1) k2 (sorted.take (max 1 k2))
termination_by k
decreasing_by exact Nat.div_lt_self (by omega) (by omega)

/-- `KalahMCTS.run_shot`: create one child per legal root move, return it at
once if it is unique, otherwise run the halving loop and return the first
surviving move.  Also returns the number of halving rounds executed.  The
`budget` only feeds the per-round simulation counts, which the statistics
oracle abstracts. -/
def run_shot (oracle : ℕ → Move → NodeStats) (root : KGame) (budget : ℕ) :
    Move × ℕ :=
  let vm := valid_moves root root.current_player
  let move_nodes := vm.map (fun mv => (mv, (default : NodeStats)))
  let k := move_nodes.length
  if k = 1 then ((move_nodes.headD (none, default)).1, 0)
  else
    let pr := shotLoop oracle 0 k move_nodes
    ((pr.1.headD (none, default)).1, pr.2)

/-- The ranking key of `run_shuss`:
`q + c * amaf / p` with the root's RAVE tables (supplied per round by the
oracles, since they are filled by the abstracted random playouts).  The
source's `(c or self.shuss_c)` falls back to `shuss_c` when `c` is `None`
or `0.0` (Python falsiness). -/
def shuss_score (raveValue : Move → ℚ) (raveVisits : Move → ℕ)
    (copt : Option ℚ) (shuss_c : ℚ) (mv : Move) (st : NodeStats) : ℚ :=
  let q := st.value / ((st.visits : ℚ) + 1 / 10000)
  let amaf := raveValue mv
  let p := (raveVisits mv : ℚ) + 1 / 10000
  let cc := match copt with
    | none => shuss_c
    | some x => if x = 0 then shuss_c else x
  q + cc * (amaf / p)

/-- The halving loop of `KalahMCTS.run_shuss`; as in `shotLoop` the playouts
are abstracted by oracles (`oracle` for candidate statistics, `raveV` /
`raveN` for the root's RAVE tables after each round). -/
def shussLoop (oracle : ℕ → Move → NodeStats) (raveV : ℕ → Move → ℚ)
    (raveN : ℕ → Move → ℕ) (copt : Option ℚ) (shuss_c : ℚ) (round : ℕ)
    (k : ℕ) (move_nodes : List (Move × NodeStats)) :
    List (Move × NodeStats) × ℕ :=
  if k ≤ 1 then (move_nodes, round)
  else
    let simulated := move_nodes.map (fun pr => (pr.1, oracle round pr.1))
    let sorted := simulated.mergeSort (fun a b =>
      decide (shuss_score (raveV round) (raveN round) copt shuss_c b.1 b.2 ≤
        shuss_score (raveV round) (raveN round) copt shuss_c a.1 a.2))
    let k2 := k / 2
    shussLoop oracle raveV raveN copt shuss_c (round + 1) k2 (sorted.take (max 1 k2))
termination_by k
decreasing_by exact Nat.div_lt_self (by omega) (by omega)

/-- `KalahMCTS.run_shuss`, with the same instrumentation as `run_shot`. -/
def run_shuss (oracle : ℕ → Move → NodeStats) (raveV : ℕ → Move → ℚ)
    (raveN : ℕ → Move → ℕ) (root : KGame) (budget : ℕ) (copt : Option ℚ)
    (shuss_c : ℚ) : Move × ℕ :=
  let vm := valid_moves root root.current_player
  let move_nodes := vm.map (fun mv => (mv, (default : NodeStats)))
  let k := move_nodes.length
  if k = 1 then ((move_nodes.headD (none, default)).1, 0)
  else
    let pr := shussLoop oracle raveV raveN copt shuss_c 0 k move_nodes
    ((pr.1.headD (none, default)).1, pr.2)

/-- An NRPA policy: weights keyed by (state tuple, move); the Python
`dict.get(key, 0)` convention is modelled by a total function defaulting
to whatever the caller supplies (0 in all claims). -/
abbrev Pol := SKey × Move → ℝ

/-- The game rebuilt inside `adapt` from a stored state tuple: `KalahGame()`
with board and player overwritten; `last_pit` remains `None`. -/
def state_game (s : SKey) : KGame :=
  { board := s.1, current_player := s.2, last_pit := none }

/-- `NRPA.softmax_probs`: look up the weights of the given moves at the
game's state, subtract the maximum for numerical stability, exponentiate,
and normalize; if the total is 0 fall back to the uniform distribution.
Python's `max` raises on an empty list (the moves list is never empty at the
call sites); the `[]` branch is the total extension.  Genuinely real-valued
because of `math.exp`. -/
noncomputable def softmax_probs (policy : Pol) (g : KGame) (moves : List Move) :
    List ℝ :=
  let state := from_board_to_state g
  let weights := moves.map (fun mv => policy (state, mv))
  let max_weight := match weights with
    | [] => 0
    | w :: ws => ws.foldl max w
  let exp_weights := weights.map (fun w => Real.exp (w - max_weight))
  let total := exp_weights.sum
  if total = 0 then List.replicate moves.length ((1 : ℝ) / (moves.length : ℝ))
  else exp_weights.map (fun w => w / total)

/-- The body of the inner loop of `NRPA.adapt` for the enumerated legal move
`im = (i, m)`: `policy[key] = policy.get(key, 0)` is a no-op in the
total-function model; the chosen move's weight gains 1, every other legal
move's weight loses its softmax probability `probs[i]`. -/
noncomputable def adapt_upd (state : SKey) (move : Move) (probs : List ℝ)
    (policy : Pol) (im : ℕ × Move) : Pol :=
  let key := (state, im.2)
  if im.2 = move then Function.update policy key (policy key + 1)
  else Function.update policy key (policy key - probs.getD im.1 0)

/-- One `(move, state)` pair of `NRPA.adapt`: rebuild the stored state's
game, recompute the softmax over its legal moves, then update each legal
move's weight in enumeration order. -/
noncomputable def adapt_step (policy : Pol) (pr : Move × SKey) : Pol :=
  let g := state_game pr.2
  let vm := valid_moves g g.current_player
  let probs := softmax_probs policy g vm
  vm.enum.foldl (adapt_upd pr.2 pr.1 probs) policy

/-- `NRPA.adapt`: process the recorded `(move, state)` pairs in order,
threading the policy through. -/
noncomputable def adapt (policy : Pol) (sequence : List (Move × SKey)) : Pol :=
  sequence.foldl adapt_step policy

/-- The initial position's state tuple, used as a concrete adapt input. -/
def c4state : SKey := ([4, 4, 4, 4, 4, 4, 0, 4, 4, 4, 4, 4, 4, 0], 0)

/-- The all-zero policy. -/
def c4pol : Pol := fun _ => 0

/-- Dictionary lookup in insertion order (`dict.get` semantics on an
association list with unique keys): first entry with the given key. -/
def inner_find : List (Move × ℚ) → Move → Option ℚ
  | [], _ => none
  | av :: rest, a => if av.1 = a then some av.2 else inner_find rest a

/-- The candidate moves of the PUCT prior computation in `MCTSNode.expand`,
with their evaluator scores.  `game` has already performed the expanding
move at this point in the source, so the candidates are the successor
state's legal moves, scored from the successor's current player's
perspective (`evaluate(temp_game, game.current_player)`). -/
def prior_scores (g : KGame) (move : Move) : List (Move × ℚ) :=
  let game := perform_move g move g.current_player
  (valid_moves game game.current_player).map (fun m =>
    (m, evaluate (perform_move game m game.current_player) game.current_player))

/-- The prior `MCTSNode.expand` assigns to the new child when PUCT is on:
`move_scores.get(move, 0) / total_score` when the total is positive,
otherwise the uniform `1 / len(candidates)`. -/
def expand_prior (g : KGame) (move : Move) : ℚ :=
  let game := perform_move g move g.current_player
  let cand := valid_moves game game.current_player
  let pairs := prior_scores g move
  let total := (pairs.map Prod.snd).sum
  if 0 < total then (inner_find pairs move).getD 0 / total
  else 1 / (cand.length : ℚ)

/-- The C5 counterexample position: player 0 to move, pit 5 holds 14 stones
(one full lap), so expanding move 5 earns an extra turn and refills its own
pit, which makes the expanded move legal again in the successor state. -/
def c5g : KGame :=
  { board := [0, 0, 2, 2, 3, 14, 0, 5, 9, 2, 5, 3, 1, 2]
    current_player := 0
    last_pit := none }

/-- One state entry of the UBFM transposition table: the stored value of
each action, in action-insertion order. -/
abbrev TEntry := List (Move × ℚ)

/-- The UBFM transposition table `self.T`, in key-insertion order. -/
abbrev TTable := List (SKey × TEntry)

instance : DecidableEq (ℚ × TTable) := instDecidableEqProd

instance : DecidableEq (Option (ℚ × TTable)) := inferInstance

/-- `self.T` lookup (`state_key in self.T` / `self.T[state_key]`). -/
def tt_find : TTable → SKey → Option TEntry
  | [], _ => none
  | kv :: rest, k => if kv.1 = k then some kv.2 else tt_find rest k

/-- Creation of a fresh table entry (`self.T[state_key] = {}` then filled). -/
def tt_insert (T : TTable) (k : SKey) (inner : TEntry) : TTable := T ++ [(k, inner)]

/-- Overwrite the value stored at one action of one entry
(`self.T[state_key][best_a] = v`). -/
def inner_set (inner : TEntry) (a : Move) (v : ℚ) : TEntry :=
  inner.map (fun av => if av.1 = a then (av.1, v) else av)

/-- Table-level version of `inner_set` at the entry of key `k`. -/
def tt_set (T : TTable) (k : SKey) (a : Move) (v : ℚ) : TTable :=
  T.map (fun kv => if kv.1 = k then (kv.1, inner_set kv.2 a v) else kv)

/-- The value stored for an action (`self.T[state_key][a]`; actions looked
up are always present, `getD 0` is the total extension). -/
def inner_val (inner : TEntry) (a : Move) : ℚ := (inner_find inner a).getD 0

/-- `UBFM.best_action` on one entry: Python `max` (player 0) / `min`
(player 1) with the stored values as key returns the first extremal action.
The `[]` branch is unreachable (`valid_moves` is never empty, so every entry
has at least one action). -/
def best_action (inner : TEntry) (player : ℕ) : Move :=
  match inner.map Prod.fst with
  | [] => none
  | a :: rest =>
    if player = 0 then
      rest.foldl (fun best x =>
        if inner_val inner best < inner_val inner x then x else best) a
    else
      rest.foldl (fun best x =>
        if inner_val inner x < inner_val inner best then x else best) a

/-- `UBFM.unbounded_minimax_iteration`, with an explicit recursion bound
`fuel` (the Python recursion has no structural bound; `none` models a call
that does not return within `fuel` levels).  A terminal state is evaluated
directly; an unseen state grounds a new table entry by evaluating each child
once; a seen state recurses along its current best action only and
overwrites that action's stored value with the result; both table branches
return the value of the best action of the state's current entry. -/
def unbounded_minimax_iteration (evalFn : KGame → ℕ → ℚ) :
    ℕ → KGame → ℕ → TTable → Option (ℚ × TTable)
  | 0, _, _, _ => none
  | fuel + 1, state, player, T =>
    if is_terminal state then some (evalFn state player, T)
    else
      let key := from_board_to_state state
      match tt_find T key with
      | none =>
        let inner := (valid_moves state state.current_player).map (fun a =>
          (a, evalFn (perform_move state a state.current_player) player))
        let T2 := tt_insert T key inner
        some (inner_val inner (best_action inner player), T2)
      | some inner =>
        let a := best_action inner player
        match unbounded_minimax_iteration evalFn fuel
            (perform_move state a state.current_player) player T with
        | none => none
        | some vT =>
          let T2 := tt_set vT.2 key a vT.1
          let inner2 := (tt_find T2 key).getD []
          some (inner_val inner2 (best_action inner2 player), T2)

/-- The timed loop of `UBFM.run`: wall-clock time is modelled by `n`, the
number of complete iterations the budget allows before `time.time() - start`
exceeds it (`n = 0` when the budget elapses immediately). -/
def ubfm_run_table (evalFn : KGame → ℕ → ℚ) (fuel : ℕ) (root : KGame)
    (player : ℕ) : ℕ → TTable → Option TTable
  | 0, T => some T
  | n + 1, T =>
    match unbounded_minimax_iteration evalFn fuel root player T with
    | none => none
    | some vT => ubfm_run_table evalFn fuel root player n vT.2

/-- `UBFM.run`: after the timed loop, look up the root entry and return its
best action.  A missing root entry is Python's uncaught `KeyError` raised
inside `best_action`, modelled as `none`. -/
def ubfm_run (evalFn : KGame → ℕ → ℚ) (fuel n : ℕ) (root : KGame)
    (player : ℕ) : Option Move :=
  match ubfm_run_table evalFn fuel root player n [] with
  | none => none
  | some T =>
    match tt_find T (from_board_to_state root) with
    | none => none
    | some inner => some (best_action inner player)

/-- The C6 counterexample state: non-terminal, and its only move (pit 5,
one stone into the store) leads directly to a terminal position. -/
def ubfmS : KGame :=
  { board := [0, 0, 0, 0, 0, 1, 10, 1, 0, 0, 0, 0, 0, 36]
    current_player := 0
    last_pit := none }

/-- A constant-zero evaluator (UBFM's `eval_fn` is a constructor
parameter, so any evaluator is a legitimate instantiation). -/
def evalZero : KGame → ℕ → ℚ := fun _ _ => 0

/-- The table holding `ubfmS` as a seen state whose best branch ends at a
terminal state (exactly what one grounding iteration with `evalZero`
creates). -/
def ubfmT : TTable :=
  [(([0, 0, 0, 0, 0, 1, 10, 1, 0, 0, 0, 0, 0, 36], 0), [(some 5, 0)])]

/-- A small two-pit position used to exercise `UBFM.run`. -/
def ubfmR : KGame :=
  { board := [1, 0, 0, 0, 0, 0, 0, 1, 0, 0, 0, 0, 0, 0]
    current_player := 0
    last_pit := none }

/-- SECTION: theorems. -/

theorem list_sum_set (b : List ℤ) (i : ℕ) (v : ℤ) (h : i < b.length) :
    (b.set i v).sum = b.sum - b.getD i 0 + v := by
  induction b generalizing i with
  | nil => simp at h
  | cons x xs ih =>
    cases i with
    | zero => simp; ring
    | succ j =>
      simp only [List.set_cons_succ, List.sum_cons, List.getD_cons_succ]
      rw [ih j (by simpa using h)]
      ring

theorem getD_set_ne (l : List ℤ) (i j : ℕ) (v d : ℤ) (h : i ≠ j) :
    (l.set i v).getD j d = l.getD j d := by
  simp [List.getD_eq_getElem?_getD, List.getElem?_set_ne h]

theorem sow_board_length (skip : ℕ) :
    ∀ (s idx : ℕ) (b : List ℤ), ((sow skip s idx b).1).length = b.length := by
  intro s
  induction s with
  | zero => intro idx b; simp [sow]
  | succ n ih => intro idx b; simp [sow, ih]

theorem nextIdx_lt (skip idx : ℕ) : nextIdx skip idx < 14 := by
  unfold nextIdx
  split <;> exact Nat.mod_lt _ (by omega)

theorem set_length_board (b : List ℤ) (i : ℕ) (v : ℤ) : (b.set i v).length = b.length :=
  List.length_set b i v

theorem sow_sum (skip : ℕ) :
    ∀ (s idx : ℕ) (b : List ℤ), b.length = 14 →
      ((sow skip s idx b).1).sum = b.sum + s := by
  intro s
  induction s with
  | zero => intro idx b _; simp [sow]
  | succ n ih =>
    intro idx b hb
    have hj : nextIdx skip idx < b.length := by rw [hb]; exact nextIdx_lt skip idx
    rw [sow, ih _ _ (by simpa using hb), list_sum_set _ _ _ hj]
    push_cast
    ring

theorem perform_move_board_length (g : KGame) (mv : Move) (p : ℕ) :
    (perform_move g mv p).board.length = g.board.length := by
  cases mv with
  | none => rfl
  | some i =>
    simp only [perform_move]
    repeat' split
    all_goals simp [sow_board_length]

/-- C10 helper: a single `perform_move` never changes the stone total, for any
move and any player, on a well-formed nonnegative board. -/
theorem perform_move_sum (g : KGame) (mv : Move) (p : ℕ)
    (hlen : g.board.length = 14) (hpos : ∀ x ∈ g.board, 0 ≤ x) :
    (perform_move g mv p).board.sum = g.board.sum := by
  cases mv with
  | none => rfl
  | some i =>
    simp only [perform_move]
    by_cases hi : i < g.board.length
    · have hstones : (0 : ℤ) ≤ g.board.getD i 0 := by
        apply hpos
        have := List.getD_eq_getElem g.board 0 hi
        rw [this]
        exact List.getElem_mem _
      have hb0len : (g.board.set i 0).length = 14 := by simpa using hlen
      have hb0sum : (g.board.set i 0).sum = g.board.sum - g.board.getD i 0 := by
        rw [list_sum_set _ _ _ hi]; ring
      set skip := if p = 1 then 6 else 13 with hskip
      set res := sow skip (g.board.getD i 0).toNat i (g.board.set i 0) with hres
      have hb1len : res.1.length = 14 := by rw [hres, sow_board_length, hb0len]
      have hb1sum : res.1.sum = g.board.sum := by
        rw [hres, sow_sum _ _ _ _ hb0len, hb0sum,
          Int.toNat_of_nonneg hstones]
        ring
      set b1 := res.1 with hb1
      set index := res.2 with hidx
      split
      · rename_i hcap
        obtain ⟨h6, _, _, _⟩ := hcap
        have hi6 : (6 : ℕ) < b1.length := by rw [hb1len]; omega
        have hiidx : index < b1.length := by rw [hb1len]; omega
        have hiopp : 12 - index < b1.length := by rw [hb1len]; omega
        have hne1 : index ≠ 6 := by omega
        have hne2 : 12 - index ≠ 6 := by omega
        have hne3 : 12 - index ≠ index := by omega
        rw [list_sum_set, list_sum_set, list_sum_set _ _ _ hi6]
        · rw [getD_set_ne _ _ _ _ _ hne3.symm, getD_set_ne _ _ _ _ _ hne1.symm,
            getD_set_ne _ _ _ _ _ hne2.symm, hb1sum]
          ring
        · simpa using hiidx
        · simpa using hiopp
      · split
        · rename_i hcap
          obtain ⟨h7, h13, _, _, _⟩ := hcap
          have hi13 : (13 : ℕ) < b1.length := by rw [hb1len]; omega
          have hiidx : index < b1.length := by rw [hb1len]; omega
          have hiopp : 12 - index < b1.length := by rw [hb1len]; omega
          have hne1 : index ≠ 13 := by omega
          have hne2 : 12 - index ≠ 13 := by omega
          have hne3 : 12 - index ≠ index := by omega
          rw [list_sum_set, list_sum_set, list_sum_set _ _ _ hi13]
          · rw [getD_set_ne _ _ _ _ _ hne3.symm, getD_set_ne _ _ _ _ _ hne1.symm,
              getD_set_ne _ _ _ _ _ hne2.symm, hb1sum]
            ring
          · simpa using hiidx
          · simpa using hiopp
        · exact hb1sum
    · -- out-of-range pit: reading gives 0, setting is a no-op, nothing is sown
      have hget : g.board.getD i 0 = 0 := List.getD_eq_default _ _ (le_of_not_lt hi)
      have hset : g.board.set i 0 = g.board := by
        apply List.ext_getElem (by simp)
        intro n h1 h2
        rw [List.getElem_set]
        split
        · omega
        · rfl
      simp only [hget, hset]
      have hsow : sow (if p = 1 then 6 else 13) (Int.toNat 0) i g.board = (g.board, i) := rfl
      rw [hsow]
      have hidx14 : ¬ i < 6 ∧ ¬ i < 13 := by omega
      split
      · omega
      · split
        · omega
        · rfl

theorem sow_nonneg (skip : ℕ) :
    ∀ (s idx : ℕ) (b : List ℤ), (∀ x ∈ b, 0 ≤ x) →
      ∀ x ∈ (sow skip s idx b).1, 0 ≤ x := by
  intro s
  induction s with
  | zero => intro idx b hb; simpa [sow] using hb
  | succ n ih =>
    intro idx b hb
    rw [sow]
    apply ih
    intro x hx
    rcases List.mem_or_eq_of_mem_set hx with h | h
    · exact hb x h
    · subst h
      have : (0:ℤ) ≤ b.getD (nextIdx skip idx) 0 := by
        rcases lt_or_ge (nextIdx skip idx) b.length with hlt | hge
        · exact hb _ (by rw [List.getD_eq_getElem b 0 hlt]; exact List.getElem_mem _)
        · rw [List.getD_eq_default _ _ hge]
      omega

theorem set_nonneg (b : List ℤ) (i : ℕ) (v : ℤ) (hv : 0 ≤ v)
    (hb : ∀ x ∈ b, 0 ≤ x) : ∀ x ∈ b.set i v, 0 ≤ x := by
  intro x hx
  rcases List.mem_or_eq_of_mem_set hx with h | h
  · exact hb x h
  · omega

theorem getD_nonneg (b : List ℤ) (i : ℕ) (hb : ∀ x ∈ b, 0 ≤ x) :
    0 ≤ b.getD i 0 := by
  rcases lt_or_ge i b.length with hlt | hge
  · exact hb _ (by rw [List.getD_eq_getElem b 0 hlt]; exact List.getElem_mem _)
  · rw [List.getD_eq_default _ _ hge]

theorem perform_move_nonneg (g : KGame) (mv : Move) (p : ℕ)
    (hpos : ∀ x ∈ g.board, 0 ≤ x) :
    ∀ x ∈ (perform_move g mv p).board, 0 ≤ x := by
  cases mv with
  | none => exact hpos
  | some i =>
    simp only [perform_move]
    have hb0 : ∀ x ∈ g.board.set i 0, 0 ≤ x := set_nonneg _ _ _ le_rfl hpos
    set skip := if p = 1 then 6 else 13 with hskip
    set res := sow skip (g.board.getD i 0).toNat i (g.board.set i 0) with hres
    have hb1 : ∀ x ∈ res.1, 0 ≤ x := by
      rw [hres]; exact sow_nonneg _ _ _ _ hb0
    set b1 := res.1 with hb1def
    set index := res.2 with hidx
    split
    · apply set_nonneg _ _ _ le_rfl
      apply set_nonneg _ _ _ le_rfl
      apply set_nonneg _ _ _ _ hb1
      have h1 := getD_nonneg b1 6 hb1
      have h2 := getD_nonneg b1 index hb1
      have h3 := getD_nonneg b1 (12 - index) hb1
      omega
    · split
      · apply set_nonneg _ _ _ le_rfl
        apply set_nonneg _ _ _ le_rfl
        apply set_nonneg _ _ _ _ hb1
        have h1 := getD_nonneg b1 13 hb1
        have h2 := getD_nonneg b1 index hb1
        have h3 := getD_nonneg b1 (12 - index) hb1
        omega
      · exact hb1

theorem reachable_invariant (g : KGame) (h : Reachable g) :
    g.board.length = 14 ∧ (∀ x ∈ g.board, 0 ≤ x) ∧ g.board.sum = 48 := by
  induction h with
  | init => refine ⟨by decide, by decide, by decide⟩
  | step g mv hg hm ih =>
    obtain ⟨hlen, hpos, hsum⟩ := ih
    refine ⟨by rw [perform_move_board_length]; exact hlen,
      perform_move_nonneg _ _ _ hpos, ?_⟩
    rw [perform_move_sum _ _ _ hlen hpos, hsum]

/-- C10: `perform_move` preserves the total number of stones on the board for
every move and every player (on a well-formed board with nonnegative pit
counts, as every reachable state is), so every state reachable from the
initial position holds exactly 48 stones. -/
theorem C10_stone_conservation :
    (∀ (g : KGame) (mv : Move) (p : ℕ), g.board.length = 14 →
      (∀ x ∈ g.board, 0 ≤ x) →
      (perform_move g mv p).board.sum = g.board.sum) ∧
    (∀ g : KGame, Reachable g → g.board.sum = 48) :=
  ⟨fun g mv p hlen hpos => perform_move_sum g mv p hlen hpos,
   fun g h => (reachable_invariant g h).2.2⟩

theorem C10_stone_conservation_witness :
    (perform_move initGame (some 2) 0).board.sum = initGame.board.sum ∧
    initGame.board.sum = 48 :=
  ⟨C10_stone_conservation.1 initGame (some 2) 0 (by decide) (by decide),
   C10_stone_conservation.2 initGame Reachable.init⟩

/-- C9: performing the sentinel no-move (`move = None`) leaves the game state
completely unchanged — board, current player and last pit — for every state
and every player; in particular it does not hand the turn to the opponent. -/
theorem C9_none_move_frame (g : KGame) (p : ℕ) : perform_move g none p = g := rfl

theorem ite_lt_eq_max (a b : EV) : (if a < b then b else a) = max a b := by
  rcases le_or_lt b a with h | h
  · rw [if_neg (not_lt.mpr h), max_eq_left h]
  · rw [if_pos h, max_eq_right h.le]

theorem ite_lt_eq_min (a b : EV) : (if b < a then b else a) = min a b := by
  rcases le_or_lt a b with h | h
  · rw [if_neg (not_lt.mpr h), min_eq_left h]
  · rw [if_pos h, min_eq_right h.le]

theorem foldl_max_init (l : List EV) (a : EV) :
    l.foldl max a = max a (l.foldl max ⊥) := by
  induction l generalizing a with
  | nil => simp
  | cons x xs ih =>
    simp only [List.foldl_cons]
    rw [ih (max a x), ih (max ⊥ x), max_eq_right (bot_le : (⊥ : EV) ≤ x), max_assoc]

theorem foldl_min_init (l : List EV) (a : EV) :
    l.foldl min a = min a (l.foldl min ⊤) := by
  induction l generalizing a with
  | nil => simp
  | cons x xs ih =>
    simp only [List.foldl_cons]
    rw [ih (min a x), ih (min ⊤ x), min_eq_right (le_top : x ≤ (⊤ : EV)), min_assoc]

theorem clamp_comm (alpha beta x : EV) (h : alpha ≤ beta) :
    min beta (max alpha x) = max alpha (min beta x) := by
  rcases le_total x alpha with h1 | h1
  · rw [max_eq_left h1, min_eq_right h, min_eq_right (h1.trans h), max_eq_left h1]
  · rcases le_total x beta with h2 | h2
    · rw [max_eq_right h1, min_eq_right h2, max_eq_right h1]
    · rw [max_eq_right h1, min_eq_left h2, max_eq_right h]

theorem abMaxLoop_ge (f : KGame → EV → EV → EV × Option Move) (g : KGame) :
    ∀ (ms : List Move) (m : EV) (bm : Option Move) (alpha beta : EV),
      m ≤ (abMaxLoop f g ms m bm alpha beta).1 := by
  intro ms
  induction ms with
  | nil => intro m bm alpha beta; simp [abMaxLoop]
  | cons mv rest ih =>
    intro m bm alpha beta
    simp only [abMaxLoop]
    split
    · rw [ite_lt_eq_max]
      exact le_max_left _ _
    · exact le_trans (by rw [ite_lt_eq_max]; exact le_max_left _ _) (ih _ _ _ _)

theorem abMinLoop_le (f : KGame → EV → EV → EV × Option Move) (g : KGame) :
    ∀ (ms : List Move) (m : EV) (bm : Option Move) (alpha beta : EV),
      (abMinLoop f g ms m bm alpha beta).1 ≤ m := by
  intro ms
  induction ms with
  | nil => intro m bm alpha beta; simp [abMinLoop]
  | cons mv rest ih =>
    intro m bm alpha beta
    simp only [abMinLoop]
    split
    · rw [ite_lt_eq_min]
      exact min_le_left _ _
    · exact le_trans (ih _ _ _ _) (by rw [ite_lt_eq_min]; exact min_le_left _ _)

theorem abMaxLoop_clamp (f : KGame → EV → EV → EV × Option Move) (g : KGame)
    (FF : Move → EV)
    (Hf : ∀ (mv : Move) (a b : EV), a < b →
      min b (max a (f (perform_move g mv g.current_player) a b).1) =
      min b (max a (FF mv))) :
    ∀ (ms : List Move) (m : EV) (bm : Option Move) (alpha beta : EV),
      m ≤ alpha → alpha < beta →
      min beta (max alpha (abMaxLoop f g ms m bm alpha beta).1) =
      min beta (max alpha ((ms.map FF).foldl max m)) := by
  intro ms
  induction ms with
  | nil => intro m bm alpha beta hm hab; rfl
  | cons mv rest ih =>
    intro m bm alpha beta hm hab
    simp only [abMaxLoop, List.map_cons, List.foldl_cons]
    have hHf := Hf mv alpha beta hab
    set es := (f (perform_move g mv g.current_player) alpha beta).1 with hes
    by_cases hbr : beta ≤ max alpha es
    · rw [if_pos hbr]
      dsimp only
      rw [ite_lt_eq_max]
      have hL : max alpha (max m es) = max alpha es := by
        rw [← max_assoc, max_eq_left hm]
      have hbvf : beta ≤ max alpha (FF mv) := by
        have h1 : min beta (max alpha es) = beta := min_eq_left hbr
        have h2 := hHf
        rw [h1] at h2
        calc beta = min beta (max alpha (FF mv)) := h2
          _ ≤ max alpha (FF mv) := min_le_right _ _
      rw [hL, min_eq_left hbr, foldl_max_init]
      have hR : max alpha (max (max m (FF mv)) ((rest.map FF).foldl max ⊥)) =
          max (max alpha (FF mv)) ((rest.map FF).foldl max ⊥) := by
        rw [← max_assoc, ← max_assoc, max_eq_left hm]
      rw [hR, min_eq_left (hbvf.trans (le_max_left _ _))]
    · rw [if_neg hbr]
      push_neg at hbr
      rw [ite_lt_eq_max]
      have hvfes : max alpha (FF mv) = max alpha es := by
        have h1 : min beta (max alpha es) = max alpha es := min_eq_right hbr.le
        have h2 := hHf
        rw [h1] at h2
        rcases le_or_lt beta (max alpha (FF mv)) with h3 | h3
        · rw [min_eq_left h3] at h2
          exact absurd h2 (ne_of_lt hbr)
        · rw [min_eq_right h3.le] at h2
          exact h2.symm
      have hresge : max m es ≤ (abMaxLoop f g rest (max m es)
          (if m < es then some mv else bm) (max alpha es) beta).1 :=
        abMaxLoop_ge f g rest _ _ _ _
      have hges : es ≤ (abMaxLoop f g rest (max m es)
          (if m < es then some mv else bm) (max alpha es) beta).1 :=
        le_trans (le_max_right m es) hresge
      have hstep : max alpha (abMaxLoop f g rest (max m es)
          (if m < es then some mv else bm) (max alpha es) beta).1 =
          max (max alpha es) (abMaxLoop f g rest (max m es)
          (if m < es then some mv else bm) (max alpha es) beta).1 := by
        rw [max_assoc, max_eq_right hges]
      rw [hstep]
      have hr := ih (max m es) (if m < es then some mv else bm)
        (max alpha es) beta (max_le_max hm le_rfl) hbr
      rw [hr]
      have hL2 : max (max alpha es) ((rest.map FF).foldl max (max m es)) =
          max (max alpha es) ((rest.map FF).foldl max ⊥) := by
        rw [foldl_max_init, ← max_assoc, max_eq_left (max_le_max hm (le_refl es))]
      have hR2 : max alpha ((rest.map FF).foldl max (max m (FF mv))) =
          max (max alpha es) ((rest.map FF).foldl max ⊥) := by
        rw [foldl_max_init, ← max_assoc, ← max_assoc, max_eq_left hm, hvfes]
      rw [hL2, hR2]

theorem abMinLoop_clamp (f : KGame → EV → EV → EV × Option Move) (g : KGame)
    (FF : Move → EV)
    (Hf : ∀ (mv : Move) (a b : EV), a < b →
      max a (min b (f (perform_move g mv g.current_player) a b).1) =
      max a (min b (FF mv))) :
    ∀ (ms : List Move) (m : EV) (bm : Option Move) (alpha beta : EV),
      beta ≤ m → alpha < beta →
      max alpha (min beta (abMinLoop f g ms m bm alpha beta).1) =
      max alpha (min beta ((ms.map FF).foldl min m)) := by
  intro ms
  induction ms with
  | nil => intro m bm alpha beta hm hab; rfl
  | cons mv rest ih =>
    intro m bm alpha beta hm hab
    simp only [abMinLoop, List.map_cons, List.foldl_cons]
    have hHf := Hf mv alpha beta hab
    set es := (f (perform_move g mv g.current_player) alpha beta).1 with hes
    by_cases hbr : min beta es ≤ alpha
    · rw [if_pos hbr]
      dsimp only
      rw [ite_lt_eq_min]
      have hL : min beta (min m es) = min beta es := by
        rw [← min_assoc, min_eq_left hm]
      have hbvf : min beta (FF mv) ≤ alpha := by
        have h1 : max alpha (min beta es) = alpha := max_eq_left hbr
        have h2 := hHf
        rw [h1] at h2
        calc min beta (FF mv) ≤ max alpha (min beta (FF mv)) := le_max_right _ _
          _ = alpha := h2.symm
      rw [hL, max_eq_left hbr, foldl_min_init]
      have hR : min beta (min (min m (FF mv)) ((rest.map FF).foldl min ⊤)) =
          min (min beta (FF mv)) ((rest.map FF).foldl min ⊤) := by
        rw [← min_assoc, ← min_assoc, min_eq_left hm]
      rw [hR, max_eq_left ((min_le_left _ _).trans hbvf)]
    · rw [if_neg hbr]
      push_neg at hbr
      rw [ite_lt_eq_min]
      have hvfes : min beta (FF mv) = min beta es := by
        have h1 : max alpha (min beta es) = min beta es := max_eq_right hbr.le
        have h2 := hHf
        rw [h1] at h2
        rcases le_or_lt (min beta (FF mv)) alpha with h3 | h3
        · rw [max_eq_left h3] at h2
          exact absurd h2 (ne_of_gt hbr)
        · rw [max_eq_right h3.le] at h2
          exact h2.symm
      have hresle : (abMinLoop f g rest (min m es)
          (if es < m then some mv else bm) alpha (min beta es)).1 ≤ min m es :=
        abMinLoop_le f g rest _ _ _ _
      have hles : (abMinLoop f g rest (min m es)
          (if es < m then some mv else bm) alpha (min beta es)).1 ≤ es :=
        le_trans hresle (min_le_right m es)
      have hstep : min beta (abMinLoop f g rest (min m es)
          (if es < m then some mv else bm) alpha (min beta es)).1 =
          min (min beta es) (abMinLoop f g rest (min m es)
          (if es < m then some mv else bm) alpha (min beta es)).1 := by
        rw [min_assoc, min_eq_right hles]
      rw [hstep]
      have hr := ih (min m es) (if es < m then some mv else bm)
        alpha (min beta es) (min_le_min hm le_rfl) hbr
      rw [hr]
      have hL2 : min (min beta es) ((rest.map FF).foldl min (min m es)) =
          min (min beta es) ((rest.map FF).foldl min ⊤) := by
        rw [foldl_min_init, ← min_assoc, min_eq_left (min_le_min hm (le_refl es))]
      have hR2 : min beta ((rest.map FF).foldl min (min m (FF mv))) =
          min (min beta es) ((rest.map FF).foldl min ⊤) := by
        rw [foldl_min_init, ← min_assoc, ← min_assoc, min_eq_left hm, hvfes]
      rw [hL2, hR2]

theorem minimax_clamp (d : ℕ) :
    ∀ (g : KGame) (p : ℕ) (alpha beta : EV), alpha < beta →
      min beta (max alpha (minimax d g alpha beta p).1) =
      min beta (max alpha (minimaxFull d g p)) := by
  induction d with
  | zero => intro g p alpha beta hab; rfl
  | succ n ih =>
    intro g p alpha beta hab
    simp only [minimax, minimaxFull]
    split
    · rfl
    · split
      · exact abMaxLoop_clamp _ g
          (fun mv => minimaxFull n (perform_move g mv g.current_player) p)
          (fun mv a b h => ih (perform_move g mv g.current_player) p a b h)
          (valid_moves g g.current_player) ⊥ none alpha beta bot_le hab
      · rw [clamp_comm _ _ _ hab.le, clamp_comm _ _ _ hab.le]
        exact abMinLoop_clamp _ g
          (fun mv => minimaxFull n (perform_move g mv g.current_player) p)
          (fun mv a b h => by
            rw [← clamp_comm _ _ _ h.le, ← clamp_comm _ _ _ h.le]
            exact ih (perform_move g mv g.current_player) p a b h)
          (valid_moves g g.current_player) ⊤ none alpha beta le_top hab

/-- C1: for every game state, depth and optimizing player, the score that the
alpha-beta search returns with the full window `(-∞, +∞)` equals the score of
a brute-force full-width minimax of the same depth with the same evaluator at
the leaves — pruning never changes the returned value. -/
theorem C1_alphabeta_equals_fullwidth (d : ℕ) (g : KGame) (p : ℕ) :
    (minimax d g ⊥ ⊤ p).1 = minimaxFull d g p := by
  have h := minimax_clamp d g p ⊥ ⊤ bot_lt_top
  rwa [max_eq_right bot_le, max_eq_right bot_le, min_eq_right le_top,
    min_eq_right le_top] at h

theorem bp_update_value (n : BPNode) (r : ℚ) (vm : List Move) (ur : Bool) :
    (bp_update n r vm ur).value = n.value + r := by
  cases ur <;> rfl

theorem backpropagate_getD_zero (ur : Bool) (r : ℚ) (vm : List Move)
    (n : BPNode) (rest : List BPNode) :
    (backpropagate ur r vm (n :: rest)).getD 0 default = bp_update n r vm ur := by
  cases rest with
  | nil => rfl
  | cons p rest2 =>
    simp only [backpropagate]
    split <;> rfl

/-- C2: in one backpropagation call starting at or below a node, the value of
a node's parent changes by exactly the same amount as the node's value when
the two share a player, and by exactly the negated amount when their players
differ — at every link of the ancestor chain, extra-turn chains included. -/
theorem C2_backpropagation_sign (ur : Bool) (vm : List Move) :
    ∀ (i : ℕ) (path : List BPNode) (r : ℚ), i + 1 < path.length →
      ((backpropagate ur r vm path).getD (i + 1) default).value -
          (path.getD (i + 1) default).value =
        (if (path.getD (i + 1) default).player = (path.getD i default).player
         then ((backpropagate ur r vm path).getD i default).value -
           (path.getD i default).value
         else -(((backpropagate ur r vm path).getD i default).value -
           (path.getD i default).value)) := by
  intro i
  induction i with
  | zero =>
    intro path r h
    match path with
    | [] => simp at h
    | [n] => simp at h
    | n :: p :: rest =>
      simp only [backpropagate]
      split
      · rename_i hp
        simp only [List.getD_cons_succ, List.getD_cons_zero,
          backpropagate_getD_zero, bp_update_value, if_pos hp]
        ring
      · rename_i hp
        simp only [List.getD_cons_succ, List.getD_cons_zero,
          backpropagate_getD_zero, bp_update_value, if_neg hp]
        ring
  | succ k ih =>
    intro path r h
    match path with
    | [] => simp at h
    | [n] => simp at h
    | n :: p :: rest =>
      have hlen : k + 1 < (p :: rest).length := by
        simpa using Nat.lt_of_succ_lt_succ h
      simp only [backpropagate]
      split <;> (simp only [List.getD_cons_succ]; exact ih (p :: rest) _ hlen)

theorem C2_backpropagation_sign_witness :
    0 + 1 < bpPath.length ∧
    ((backpropagate false 1 [] bpPath).getD (0 + 1) default).value -
        (bpPath.getD (0 + 1) default).value =
      (if (bpPath.getD (0 + 1) default).player = (bpPath.getD 0 default).player
       then ((backpropagate false 1 [] bpPath).getD 0 default).value -
         (bpPath.getD 0 default).value
       else -(((backpropagate false 1 [] bpPath).getD 0 default).value -
         (bpPath.getD 0 default).value)) :=
  ⟨by simp [bpPath], C2_backpropagation_sign false [] 0 bpPath 1 (by simp [bpPath])⟩

theorem valid_moves_ne_nil (g : KGame) (p : ℕ) : valid_moves g p ≠ [] := by
  simp only [valid_moves]
  split
  · simp
  · rename_i h
    exact fun hc => h (List.map_eq_nil_iff.mp hc)

theorem headD_mem {α : Type} (l : List α) (d : α) (h : l ≠ []) : l.headD d ∈ l := by
  cases l with
  | nil => exact absurd rfl h
  | cons x xs => exact List.mem_cons_self x xs

theorem shotLoop_moves (oracle : ℕ → Move → NodeStats) :
    ∀ (k round : ℕ) (nodes : List (Move × NodeStats)) (pr : Move × NodeStats),
      pr ∈ (shotLoop oracle round k nodes).1 → pr.1 ∈ nodes.map Prod.fst := by
  intro k
  induction k using Nat.strong_induction_on with
  | _ k ih =>
    intro round nodes pr hpr
    rw [shotLoop] at hpr
    split at hpr
    · exact List.mem_map_of_mem Prod.fst hpr
    · rename_i hk
      have hlt : k / 2 < k := Nat.div_lt_self (by omega) (by omega)
      have h2 := ih (k / 2) hlt (round + 1) _ pr hpr
      obtain ⟨q, hq, hqe⟩ := List.mem_map.mp h2
      have hq2 : q ∈ (nodes.map (fun pr => (pr.1, oracle round pr.1))).mergeSort
          (fun a b => decide (shot_score b.2 ≤ shot_score a.2)) :=
        List.take_subset _ _ hq
      have hq3 : q ∈ nodes.map (fun pr => (pr.1, oracle round pr.1)) :=
        (List.mergeSort_perm _ _).mem_iff.mp hq2
      obtain ⟨w, hw, hwe⟩ := List.mem_map.mp hq3
      have hqw : q.1 = w.1 := by rw [← hwe]
      rw [← hqe, hqw]
      exact List.mem_map_of_mem Prod.fst hw

theorem shotLoop_ne_nil (oracle : ℕ → Move → NodeStats) :
    ∀ (k round : ℕ) (nodes : List (Move × NodeStats)), nodes ≠ [] →
      (shotLoop oracle round k nodes).1 ≠ [] := by
  intro k
  induction k using Nat.strong_induction_on with
  | _ k ih =>
    intro round nodes hne
    rw [shotLoop]
    split
    · exact hne
    · rename_i hk
      have hlt : k / 2 < k := Nat.div_lt_self (by omega) (by omega)
      apply ih (k / 2) hlt (round + 1)
      have hsort : ((nodes.map (fun pr => (pr.1, oracle round pr.1))).mergeSort
          (fun a b => decide (shot_score b.2 ≤ shot_score a.2))) ≠ [] := by
        intro hc
        apply hne
        have hlen := (List.mergeSort_perm (nodes.map (fun pr => (pr.1, oracle round pr.1)))
          (fun a b => decide (shot_score b.2 ≤ shot_score a.2))).length_eq
        rw [hc] at hlen
        simp only [List.length_nil, List.length_map] at hlen
        exact List.eq_nil_of_length_eq_zero (by omega)
      cases hs : ((nodes.map (fun pr => (pr.1, oracle round pr.1))).mergeSort
          (fun a b => decide (shot_score b.2 ≤ shot_score a.2))) with
      | nil => exact absurd hs hsort
      | cons x xs =>
        have : max 1 (k / 2) = (max 1 (k / 2) - 1) + 1 := by omega
        rw [this, List.take_succ_cons]
        simp

theorem shotLoop_rounds (oracle : ℕ → Move → NodeStats) :
    ∀ (k round : ℕ) (nodes : List (Move × NodeStats)),
      (shotLoop oracle round k nodes).2 = round + Nat.log2 k := by
  intro k
  induction k using Nat.strong_induction_on with
  | _ k ih =>
    intro round nodes
    rw [shotLoop]
    split
    · rename_i hk
      rw [Nat.log2, if_neg (by omega)]
      simp
    · rename_i hk
      have hlt : k / 2 < k := Nat.div_lt_self (by omega) (by omega)
      rw [ih (k / 2) hlt (round + 1)]
      conv_rhs => rw [Nat.log2]
      rw [if_pos (by omega)]
      omega

theorem log2_le_clog_two (k : ℕ) : Nat.log2 k ≤ Nat.clog 2 k := by
  rcases Nat.eq_zero_or_pos k with h | h
  · subst h
    simp [Nat.log2]
  · rw [Nat.log2_eq_log_two]
    have h1 : 2 ^ Nat.log 2 k ≤ k := Nat.pow_log_le_self 2 (by omega)
    have h2 : k ≤ 2 ^ Nat.clog 2 k := Nat.le_pow_clog (by omega) k
    exact (Nat.pow_le_pow_iff_right (by omega)).mp (h1.trans h2)

theorem shussLoop_moves (oracle : ℕ → Move → NodeStats) (raveV : ℕ → Move → ℚ)
    (raveN : ℕ → Move → ℕ) (copt : Option ℚ) (sc : ℚ) :
    ∀ (k round : ℕ) (nodes : List (Move × NodeStats)) (pr : Move × NodeStats),
      pr ∈ (shussLoop oracle raveV raveN copt sc round k nodes).1 →
        pr.1 ∈ nodes.map Prod.fst := by
  intro k
  induction k using Nat.strong_induction_on with
  | _ k ih =>
    intro round nodes pr hpr
    rw [shussLoop] at hpr
    split at hpr
    · exact List.mem_map_of_mem Prod.fst hpr
    · rename_i hk
      have hlt : k / 2 < k := Nat.div_lt_self (by omega) (by omega)
      have h2 := ih (k / 2) hlt (round + 1) _ pr hpr
      obtain ⟨q, hq, hqe⟩ := List.mem_map.mp h2
      have hq2 : q ∈ (nodes.map (fun pr => (pr.1, oracle round pr.1))).mergeSort
          (fun a b => decide (shuss_score (raveV round) (raveN round) copt sc b.1 b.2 ≤
            shuss_score (raveV round) (raveN round) copt sc a.1 a.2)) :=
        List.take_subset _ _ hq
      have hq3 : q ∈ nodes.map (fun pr => (pr.1, oracle round pr.1)) :=
        (List.mergeSort_perm _ _).mem_iff.mp hq2
      obtain ⟨w, hw, hwe⟩ := List.mem_map.mp hq3
      have hqw : q.1 = w.1 := by rw [← hwe]
      rw [← hqe, hqw]
      exact List.mem_map_of_mem Prod.fst hw

theorem shussLoop_ne_nil (oracle : ℕ → Move → NodeStats) (raveV : ℕ → Move → ℚ)
    (raveN : ℕ → Move → ℕ) (copt : Option ℚ) (sc : ℚ) :
    ∀ (k round : ℕ) (nodes : List (Move × NodeStats)), nodes ≠ [] →
      (shussLoop oracle raveV raveN copt sc round k nodes).1 ≠ [] := by
  intro k
  induction k using Nat.strong_induction_on with
  | _ k ih =>
    intro round nodes hne
    rw [shussLoop]
    split
    · exact hne
    · rename_i hk
      have hlt : k / 2 < k := Nat.div_lt_self (by omega) (by omega)
      apply ih (k / 2) hlt (round + 1)
      have hsort : ((nodes.map (fun pr => (pr.1, oracle round pr.1))).mergeSort
          (fun a b => decide (shuss_score (raveV round) (raveN round) copt sc b.1 b.2 ≤
            shuss_score (raveV round) (raveN round) copt sc a.1 a.2))) ≠ [] := by
        intro hc
        apply hne
        have hlen := (List.mergeSort_perm (nodes.map (fun pr => (pr.1, oracle round pr.1)))
          (fun a b => decide (shuss_score (raveV round) (raveN round) copt sc b.1 b.2 ≤
            shuss_score (raveV round) (raveN round) copt sc a.1 a.2))).length_eq
        rw [hc] at hlen
        simp only [List.length_nil, List.length_map] at hlen
        exact List.eq_nil_of_length_eq_zero (by omega)
      cases hs : ((nodes.map (fun pr => (pr.1, oracle round pr.1))).mergeSort
          (fun a b => decide (shuss_score (raveV round) (raveN round) copt sc b.1 b.2 ≤
            shuss_score (raveV round) (raveN round) copt sc a.1 a.2))) with
      | nil => exact absurd hs hsort
      | cons x xs =>
        have : max 1 (k / 2) = (max 1 (k / 2) - 1) + 1 := by omega
        rw [this, List.take_succ_cons]
        simp

theorem shussLoop_rounds (oracle : ℕ → Move → NodeStats) (raveV : ℕ → Move → ℚ)
    (raveN : ℕ → Move → ℕ) (copt : Option ℚ) (sc : ℚ) :
    ∀ (k round : ℕ) (nodes : List (Move × NodeStats)),
      (shussLoop oracle raveV raveN copt sc round k nodes).2 = round + Nat.log2 k := by
  intro k
  induction k using Nat.strong_induction_on with
  | _ k ih =>
    intro round nodes
    rw [shussLoop]
    split
    · rename_i hk
      rw [Nat.log2, if_neg (by omega)]
      simp
    · rename_i hk
      have hlt : k / 2 < k := Nat.div_lt_self (by omega) (by omega)
      rw [ih (k / 2) hlt (round + 1)]
      conv_rhs => rw [Nat.log2]
      rw [if_pos (by omega)]
      omega

theorem map_fst_mk_default (vm : List Move) :
    (vm.map (fun mv => (mv, (default : NodeStats)))).map Prod.fst = vm := by
  induction vm with
  | nil => rfl
  | cons x xs ih => simp only [List.map_cons, ih]

/-- C3: for every root state (its candidate set is never empty) and every
budget, `run_shot` and `run_shuss` execute at most `⌈log2 k⌉` halving rounds
(`k` the number of initial candidates) and return a move from the initial
candidate set — for every outcome of the abstracted random playouts. -/
theorem C3_halving_termination_membership
    (oracle oracle2 : ℕ → Move → NodeStats) (raveV : ℕ → Move → ℚ)
    (raveN : ℕ → Move → ℕ) (root : KGame) (budget budget2 : ℕ)
    (copt : Option ℚ) (sc : ℚ) :
    ((run_shot oracle root budget).1 ∈ valid_moves root root.current_player ∧
      (run_shot oracle root budget).2 ≤
        Nat.clog 2 (valid_moves root root.current_player).length) ∧
    ((run_shuss oracle2 raveV raveN root budget2 copt sc).1 ∈
        valid_moves root root.current_player ∧
      (run_shuss oracle2 raveV raveN root budget2 copt sc).2 ≤
        Nat.clog 2 (valid_moves root root.current_player).length) := by
  have hvm : valid_moves root root.current_player ≠ [] :=
    valid_moves_ne_nil root root.current_player
  have hmn : (valid_moves root root.current_player).map
      (fun mv => (mv, (default : NodeStats))) ≠ [] := by
    intro hc
    exact hvm (List.map_eq_nil_iff.mp hc)
  constructor
  · simp only [run_shot]
    split
    · constructor
      · have hmem := headD_mem _ ((none : Move), (default : NodeStats)) hmn
        have := List.mem_map_of_mem Prod.fst hmem
        rw [map_fst_mk_default] at this
        exact this
      · exact Nat.zero_le _
    · constructor
      · have hne := shotLoop_ne_nil oracle
          ((valid_moves root root.current_player).map
            (fun mv => (mv, (default : NodeStats)))).length 0 _ hmn
        have hmem := headD_mem _ ((none : Move), (default : NodeStats)) hne
        have h2 := shotLoop_moves oracle _ 0 _ _ hmem
        rw [map_fst_mk_default] at h2
        exact h2
      · rw [shotLoop_rounds]
        simp only [Nat.zero_add, List.length_map]
        exact log2_le_clog_two _
  · simp only [run_shuss]
    split
    · constructor
      · have hmem := headD_mem _ ((none : Move), (default : NodeStats)) hmn
        have := List.mem_map_of_mem Prod.fst hmem
        rw [map_fst_mk_default] at this
        exact this
      · exact Nat.zero_le _
    · constructor
      · have hne := shussLoop_ne_nil oracle2 raveV raveN copt sc
          ((valid_moves root root.current_player).map
            (fun mv => (mv, (default : NodeStats)))).length 0 _ hmn
        have hmem := headD_mem _ ((none : Move), (default : NodeStats)) hne
        have h2 := shussLoop_moves oracle2 raveV raveN copt sc _ 0 _ _ hmem
        rw [map_fst_mk_default] at h2
        exact h2
      · rw [shussLoop_rounds]
        simp only [Nat.zero_add, List.length_map]
        exact log2_le_clog_two _

theorem list_sum_map_div (l : List ℝ) (c : ℝ) :
    (l.map (fun w => w / c)).sum = l.sum / c := by
  induction l with
  | nil => simp
  | cons x xs ih => simp [ih, add_div]

theorem foldl_max_real_const (c : ℝ) :
    ∀ l : List ℝ, (∀ x ∈ l, x = c) → l.foldl max c = c := by
  intro l
  induction l with
  | nil => intro _; rfl
  | cons x xs ih =>
    intro hall
    have hx : x = c := hall x (List.mem_cons_self _ _)
    simp only [List.foldl_cons, hx, max_self]
    exact ih (fun y hy => hall y (List.mem_cons_of_mem _ hy))

/-- The definitional shape of the softmax on a non-empty move list. -/
theorem softmax_shape (policy : Pol) (g : KGame) (m : Move) (rest : List Move) :
    softmax_probs policy g (m :: rest) =
      (let ex := ((m :: rest).map (fun mv => policy (from_board_to_state g, mv))).map
        (fun w => Real.exp (w -
          (rest.map (fun mv => policy (from_board_to_state g, mv))).foldl max
            (policy (from_board_to_state g, m))));
       if ex.sum = 0 then
         List.replicate (m :: rest).length ((1 : ℝ) / ((m :: rest).length : ℝ))
       else ex.map (fun w => w / ex.sum)) := rfl

/-- Evaluation of the softmax at a policy that is constant on the state's
moves: all shifted weights are 0, every exponential is 1, and the result is
the uniform distribution. -/
theorem softmax_probs_const (policy : Pol) (g : KGame) (moves : List Move)
    (c : ℝ) (hne : moves ≠ [])
    (hc : ∀ mv ∈ moves, policy (from_board_to_state g, mv) = c) :
    softmax_probs policy g moves =
      List.replicate moves.length ((1 : ℝ) / (moves.length : ℝ)) := by
  cases moves with
  | nil => exact absurd rfl hne
  | cons m rest =>
    rw [softmax_shape]
    have hm : policy (from_board_to_state g, m) = c :=
      hc m (List.mem_cons_self _ _)
    have hrest : rest.map (fun mv => policy (from_board_to_state g, mv)) =
        List.replicate rest.length c := by
      rw [List.map_congr_left
        (fun mv hmv => hc mv (List.mem_cons_of_mem _ hmv) :
          ∀ mv ∈ rest, policy (from_board_to_state g, mv) = (fun _ => c) mv)]
      exact List.map_const rest c
    simp only [List.map_cons, hm, hrest]
    have hmax : (List.replicate rest.length c).foldl max c = c :=
      foldl_max_real_const c _ (fun x hx => List.eq_of_mem_replicate hx)
    rw [hmax]
    have hexp : Real.exp (c - c) = 1 := by rw [sub_self, Real.exp_zero]
    rw [List.map_replicate, hexp]
    have hsum : ((1 : ℝ) :: List.replicate rest.length 1).sum =
        ((rest.length + 1 : ℕ) : ℝ) := by
      simp [List.sum_replicate]
      ring
    rw [hsum]
    have hne2 : ((rest.length + 1 : ℕ) : ℝ) ≠ 0 := by
      push_cast
      positivity
    rw [if_neg hne2, List.map_replicate]
    simp only [List.length_cons]
    rw [List.replicate_succ]

/-- C8: for every policy, state and non-empty move list the softmax
probability vector is entrywise non-negative, sums to 1 within `1e-9`
(exactly 1 in real arithmetic), and equals the uniform distribution in the
degenerate all-equal-weights case. -/
theorem C8_softmax_normalization (policy : Pol) (g : KGame) (moves : List Move)
    (h : moves ≠ []) :
    (∀ q ∈ softmax_probs policy g moves, 0 ≤ q) ∧
    |(softmax_probs policy g moves).sum - 1| ≤ 1 / 1000000000 ∧
    ((∀ mv ∈ moves, ∀ mv2 ∈ moves,
        policy (from_board_to_state g, mv) = policy (from_board_to_state g, mv2)) →
      softmax_probs policy g moves =
        List.replicate moves.length ((1 : ℝ) / (moves.length : ℝ))) := by
  refine ⟨?_, ?_, ?_⟩
  · cases moves with
    | nil => exact absurd rfl h
    | cons m rest =>
      rw [softmax_shape]
      dsimp only
      set ex := ((m :: rest).map (fun mv => policy (from_board_to_state g, mv))).map
        (fun w => Real.exp (w -
          (rest.map (fun mv => policy (from_board_to_state g, mv))).foldl max
            (policy (from_board_to_state g, m)))) with hex
      have hex_pos : ∀ x ∈ ex, 0 < x := by
        intro x hx
        rw [hex] at hx
        obtain ⟨w, _, hwe⟩ := List.mem_map.mp hx
        rw [← hwe]
        exact Real.exp_pos _
      have hexne : ex ≠ [] := by rw [hex]; simp
      have htot : 0 < ex.sum := List.sum_pos ex hex_pos hexne
      rw [if_neg htot.ne']
      intro q hq
      obtain ⟨w, hw, hwe⟩ := List.mem_map.mp hq
      rw [← hwe]
      exact div_nonneg (hex_pos w hw).le htot.le
  · cases moves with
    | nil => exact absurd rfl h
    | cons m rest =>
      rw [softmax_shape]
      dsimp only
      set ex := ((m :: rest).map (fun mv => policy (from_board_to_state g, mv))).map
        (fun w => Real.exp (w -
          (rest.map (fun mv => policy (from_board_to_state g, mv))).foldl max
            (policy (from_board_to_state g, m)))) with hex
      have hex_pos : ∀ x ∈ ex, 0 < x := by
        intro x hx
        rw [hex] at hx
        obtain ⟨w, _, hwe⟩ := List.mem_map.mp hx
        rw [← hwe]
        exact Real.exp_pos _
      have hexne : ex ≠ [] := by rw [hex]; simp
      have htot : 0 < ex.sum := List.sum_pos ex hex_pos hexne
      rw [if_neg htot.ne', list_sum_map_div, div_self htot.ne']
      norm_num
  · intro hall
    cases moves with
    | nil => exact absurd rfl h
    | cons m rest =>
      exact softmax_probs_const policy g (m :: rest)
        (policy (from_board_to_state g, m)) h
        (fun mv hmv => hall mv hmv m (List.mem_cons_self _ _))

theorem C8_softmax_normalization_witness :
    ([some 0] : List Move) ≠ [] ∧
    (∀ q ∈ softmax_probs c4pol initGame [some 0], 0 ≤ q) :=
  ⟨by simp, (C8_softmax_normalization c4pol initGame [some 0] (by simp)).1⟩

theorem adapt_upd_self (state : SKey) (move : Move) (probs : List ℝ)
    (policy : Pol) (j : ℕ) (m : Move) :
    (adapt_upd state move probs policy (j, m)) (state, m) =
      (if m = move then policy (state, m) + 1
       else policy (state, m) - probs.getD j 0) := by
  by_cases hm : m = move <;> simp [adapt_upd, hm, Function.update_same]

theorem adapt_upd_other (state : SKey) (move : Move) (probs : List ℝ)
    (policy : Pol) (j : ℕ) (m m0 : Move) (h : m0 ≠ m) :
    (adapt_upd state move probs policy (j, m)) (state, m0) = policy (state, m0) := by
  have hkey : ((state, m0) : SKey × Move) ≠ (state, m) := by
    intro hc
    exact h (Prod.ext_iff.mp hc).2
  by_cases hm : m = move
  · subst hm
    simp [adapt_upd, Function.update_noteq hkey]
  · simp [adapt_upd, hm, Function.update_noteq hkey]

/-- Pointwise evaluation of the inner `adapt` loop: with distinct enumerated
moves, the weight of a move `m0` appearing at index `i` receives exactly one
update (`+1` if chosen, `- probs[i]` otherwise), and moves outside the list
are untouched. -/
theorem adapt_foldl_eval (state : SKey) (move : Move) (probs : List ℝ) :
    ∀ (L : List (ℕ × Move)) (policy : Pol) (m0 : Move),
      (L.map Prod.snd).Nodup →
      ((∀ i, (i, m0) ∈ L →
        (L.foldl (adapt_upd state move probs) policy) (state, m0) =
          (if m0 = move then policy (state, m0) + 1
           else policy (state, m0) - probs.getD i 0)) ∧
       (m0 ∉ L.map Prod.snd →
        (L.foldl (adapt_upd state move probs) policy) (state, m0) =
          policy (state, m0))) := by
  intro L
  induction L with
  | nil =>
    intro policy m0 _
    exact ⟨fun i hi => absurd hi (List.not_mem_nil _), fun _ => rfl⟩
  | cons jm L2 ih =>
    intro policy m0 hnd
    obtain ⟨j, m⟩ := jm
    rw [List.map_cons, List.nodup_cons] at hnd
    obtain ⟨hm_not, hnd2⟩ := hnd
    constructor
    · intro i hi
      rcases List.mem_cons.mp hi with heq | hmem
      · obtain ⟨hi1, hi2⟩ := Prod.ext_iff.mp heq
        subst hi1
        subst hi2
        simp only [List.foldl_cons]
        rw [(ih (adapt_upd state move probs policy (i, m0)) m0 hnd2).2 hm_not]
        exact adapt_upd_self state move probs policy i m0
      · have hm0m : m0 ≠ m := by
          intro hc
          apply hm_not
          rw [← hc]
          exact List.mem_map.mpr ⟨(i, m0), hmem, rfl⟩
        simp only [List.foldl_cons]
        rw [(ih (adapt_upd state move probs policy (j, m)) m0 hnd2).1 i hmem]
        rw [adapt_upd_other state move probs policy j m m0 hm0m]
    · intro hnm
      have hm0m : m0 ≠ m := by
        intro hc
        apply hnm
        rw [List.map_cons, hc]
        exact List.mem_cons_self _ _
      have hnm2 : m0 ∉ L2.map Prod.snd := by
        intro hc
        apply hnm
        rw [List.map_cons]
        exact List.mem_cons_of_mem _ hc
      simp only [List.foldl_cons]
      rw [(ih (adapt_upd state move probs policy (j, m)) m0 hnd2).2 hnm2]
      exact adapt_upd_other state move probs policy j m m0 hm0m

theorem valid_moves_nodup (g : KGame) (p : ℕ) : (valid_moves g p).Nodup := by
  simp only [valid_moves]
  split
  · simp
  · apply List.Nodup.map (Option.some_injective ℕ)
    apply List.Nodup.filter
    apply List.Nodup.map _ (List.nodup_range 6)
    intro a b hab
    have hab2 : p * 7 + a = p * 7 + b := hab
    omega

/-- C4 (amended): one `adapt` step, at each `(state, move)` pair, recomputes
the softmax over the state's legal moves, then increments the chosen move's
weight by exactly 1 and decrements every OTHER legal move's weight by its
current softmax probability; the chosen move itself is not decremented by
its own probability. -/
theorem C4_adapt_step_update (policy : Pol) (s : SKey) (chosen : Move)
    (hmem : chosen ∈ valid_moves (state_game s) (state_game s).current_player) :
    (adapt_step policy (chosen, s)) (s, chosen) = policy (s, chosen) + 1 ∧
    (∀ pr ∈ (valid_moves (state_game s) (state_game s).current_player).enum,
      pr.2 ≠ chosen →
      (adapt_step policy (chosen, s)) (s, pr.2) =
        policy (s, pr.2) -
          (softmax_probs policy (state_game s)
            (valid_moves (state_game s) (state_game s).current_player)).getD pr.1 0) := by
  have hnd : (((valid_moves (state_game s)
      (state_game s).current_player).enum).map Prod.snd).Nodup := by
    rw [List.enum_map_snd]
    exact valid_moves_nodup _ _
  constructor
  · obtain ⟨i, hlt, hget⟩ := List.getElem_of_mem hmem
    have henum : (i, chosen) ∈ (valid_moves (state_game s)
        (state_game s).current_player).enum := by
      rw [List.mk_mem_enum_iff_getElem?]
      rw [List.getElem?_eq_getElem hlt, hget]
    have h := (adapt_foldl_eval s chosen
      (softmax_probs policy (state_game s)
        (valid_moves (state_game s) (state_game s).current_player))
      ((valid_moves (state_game s) (state_game s).current_player).enum)
      policy chosen hnd).1 i henum
    rw [if_pos rfl] at h
    exact h
  · intro pr hpr hne
    obtain ⟨i, m0⟩ := pr
    have h := (adapt_foldl_eval s chosen
      (softmax_probs policy (state_game s)
        (valid_moves (state_game s) (state_game s).current_player))
      ((valid_moves (state_game s) (state_game s).current_player).enum)
      policy m0 hnd).1 i hpr
    rw [if_neg hne] at h
    exact h

theorem C4_adapt_step_update_witness :
    (some 0 : Move) ∈ valid_moves (state_game c4state)
      (state_game c4state).current_player ∧
    (adapt_step c4pol ((some 0 : Move), c4state)) (c4state, some 0) =
      c4pol (c4state, some 0) + 1 :=
  ⟨by decide, (C4_adapt_step_update c4pol c4state (some 0) (by decide)).1⟩

theorem C4_counterexample_chosen_not_decremented :
    adapt c4pol [(some 0, c4state)] (c4state, some 0) =
      c4pol (c4state, some 0) + 1 ∧
    ¬ (adapt c4pol [(some 0, c4state)] (c4state, some 0) =
       c4pol (c4state, some 0) + 1 -
         (softmax_probs c4pol (state_game c4state)
           (valid_moves (state_game c4state)
             (state_game c4state).current_player)).getD 0 0) := by
  have hvm : valid_moves (state_game c4state) (state_game c4state).current_player =
      [some 0, some 1, some 2, some 3, some 4, some 5] := by decide
  have hnd : (((valid_moves (state_game c4state)
      (state_game c4state).current_player).enum).map Prod.snd).Nodup := by
    rw [List.enum_map_snd]
    exact valid_moves_nodup _ _
  have henum : (0, (some 0 : Move)) ∈ (valid_moves (state_game c4state)
      (state_game c4state).current_player).enum := by
    rw [hvm]
    decide
  have h1 : adapt c4pol [(some 0, c4state)] (c4state, some 0) =
      c4pol (c4state, some 0) + 1 := by
    have h := (adapt_foldl_eval c4state (some 0)
      (softmax_probs c4pol (state_game c4state)
        (valid_moves (state_game c4state) (state_game c4state).current_player))
      ((valid_moves (state_game c4state) (state_game c4state).current_player).enum)
      c4pol (some 0) hnd).1 0 henum
    rw [if_pos rfl] at h
    exact h
  refine ⟨h1, ?_⟩
  rw [h1, hvm, softmax_probs_const c4pol (state_game c4state)
    [some 0, some 1, some 2, some 3, some 4, some 5] 0 (by simp)
    (fun mv _ => rfl)]
  have hgd : (List.replicate
      ([some 0, some 1, some 2, some 3, some 4, some 5] : List Move).length
      ((1 : ℝ) / (([some 0, some 1, some 2, some 3, some 4,
        some 5] : List Move).length : ℝ))).getD 0 0 = 1 / ((6 : ℕ) : ℝ) := rfl
  rw [hgd]
  simp only [c4pol]
  push_cast
  norm_num

theorem evaluate_eq (g : KGame) (p : ℕ) (a b c : ℤ)
    (h1 : get_store g p - get_store g (1 - p) = a)
    (h2 : (count_extra_moves g p : ℤ) - (count_extra_moves g (1 - p) : ℤ) = b)
    (h3 : (count_potential_captures g p : ℤ) -
      (count_potential_captures g (1 - p) : ℤ) = c) :
    evaluate g p = 1 * (a : ℚ) + 7 / 10 * (b : ℚ) + 2 / 10 * (c : ℚ) := by
  simp only [evaluate]
  rw [h1, h2, h3]


theorem prior_scores_c5g : prior_scores c5g (some 5) = [(some 0, (-7 / 10 : ℚ)), (some 1, (-7 / 10 : ℚ)), (some 2, (-7 / 10 : ℚ)), (some 3, (1 : ℚ)), (some 4, (1 : ℚ)), (some 5, (17 / 10 : ℚ))] := by
  have hcp : (c5g).current_player = 0 := rfl
  have hchild : perform_move c5g (some 5) 0 = (⟨[1, 1, 3, 3, 4, 1, 2, 6, 10, 3, 6, 4, 2, 2], 0, some 6⟩ : KGame) := by decide
  have hccp : ((⟨[1, 1, 3, 3, 4, 1, 2, 6, 10, 3, 6, 4, 2, 2], 0, some 6⟩ : KGame)).current_player = 0 := rfl
  have hcand : valid_moves (⟨[1, 1, 3, 3, 4, 1, 2, 6, 10, 3, 6, 4, 2, 2], 0, some 6⟩ : KGame) 0 = [some 0, some 1, some 2, some 3, some 4, some 5] := by decide
  have hs0 : perform_move (⟨[1, 1, 3, 3, 4, 1, 2, 6, 10, 3, 6, 4, 2, 2], 0, some 6⟩ : KGame) (some 0) 0 = (⟨[0, 2, 3, 3, 4, 1, 2, 6, 10, 3, 6, 4, 2, 2], 1, some 1⟩ : KGame) := by decide
  have he0 : evaluate (⟨[0, 2, 3, 3, 4, 1, 2, 6, 10, 3, 6, 4, 2, 2], 1, some 1⟩ : KGame) 0 = -7 / 10 := by
    rw [evaluate_eq (⟨[0, 2, 3, 3, 4, 1, 2, 6, 10, 3, 6, 4, 2, 2], 1, some 1⟩ : KGame) 0 (0) (-1) (0) (by decide) (by decide) (by decide)]
    norm_num
  have hs1 : perform_move (⟨[1, 1, 3, 3, 4, 1, 2, 6, 10, 3, 6, 4, 2, 2], 0, some 6⟩ : KGame) (some 1) 0 = (⟨[1, 0, 4, 3, 4, 1, 2, 6, 10, 3, 6, 4, 2, 2], 1, some 2⟩ : KGame) := by decide
  have he1 : evaluate (⟨[1, 0, 4, 3, 4, 1, 2, 6, 10, 3, 6, 4, 2, 2], 1, some 2⟩ : KGame) 0 = -7 / 10 := by
    rw [evaluate_eq (⟨[1, 0, 4, 3, 4, 1, 2, 6, 10, 3, 6, 4, 2, 2], 1, some 2⟩ : KGame) 0 (0) (-1) (0) (by decide) (by decide) (by decide)]
    norm_num
  have hs2 : perform_move (⟨[1, 1, 3, 3, 4, 1, 2, 6, 10, 3, 6, 4, 2, 2], 0, some 6⟩ : KGame) (some 2) 0 = (⟨[1, 1, 0, 4, 5, 2, 2, 6, 10, 3, 6, 4, 2, 2], 1, some 5⟩ : KGame) := by decide
  have he2 : evaluate (⟨[1, 1, 0, 4, 5, 2, 2, 6, 10, 3, 6, 4, 2, 2], 1, some 5⟩ : KGame) 0 = -7 / 10 := by
    rw [evaluate_eq (⟨[1, 1, 0, 4, 5, 2, 2, 6, 10, 3, 6, 4, 2, 2], 1, some 5⟩ : KGame) 0 (0) (-1) (0) (by decide) (by decide) (by decide)]
    norm_num
  have hs3 : perform_move (⟨[1, 1, 3, 3, 4, 1, 2, 6, 10, 3, 6, 4, 2, 2], 0, some 6⟩ : KGame) (some 3) 0 = (⟨[1, 1, 3, 0, 5, 2, 3, 6, 10, 3, 6, 4, 2, 2], 0, some 6⟩ : KGame) := by decide
  have he3 : evaluate (⟨[1, 1, 3, 0, 5, 2, 3, 6, 10, 3, 6, 4, 2, 2], 0, some 6⟩ : KGame) 0 = 1 := by
    rw [evaluate_eq (⟨[1, 1, 3, 0, 5, 2, 3, 6, 10, 3, 6, 4, 2, 2], 0, some 6⟩ : KGame) 0 (1) (0) (0) (by decide) (by decide) (by decide)]
    norm_num
  have hs4 : perform_move (⟨[1, 1, 3, 3, 4, 1, 2, 6, 10, 3, 6, 4, 2, 2], 0, some 6⟩ : KGame) (some 4) 0 = (⟨[1, 1, 3, 3, 0, 2, 3, 7, 11, 3, 6, 4, 2, 2], 1, some 8⟩ : KGame) := by decide
  have he4 : evaluate (⟨[1, 1, 3, 3, 0, 2, 3, 7, 11, 3, 6, 4, 2, 2], 1, some 8⟩ : KGame) 0 = 1 := by
    rw [evaluate_eq (⟨[1, 1, 3, 3, 0, 2, 3, 7, 11, 3, 6, 4, 2, 2], 1, some 8⟩ : KGame) 0 (1) (0) (0) (by decide) (by decide) (by decide)]
    norm_num
  have hs5 : perform_move (⟨[1, 1, 3, 3, 4, 1, 2, 6, 10, 3, 6, 4, 2, 2], 0, some 6⟩ : KGame) (some 5) 0 = (⟨[1, 1, 3, 3, 4, 0, 3, 6, 10, 3, 6, 4, 2, 2], 0, some 6⟩ : KGame) := by decide
  have he5 : evaluate (⟨[1, 1, 3, 3, 4, 0, 3, 6, 10, 3, 6, 4, 2, 2], 0, some 6⟩ : KGame) 0 = 17 / 10 := by
    rw [evaluate_eq (⟨[1, 1, 3, 3, 4, 0, 3, 6, 10, 3, 6, 4, 2, 2], 0, some 6⟩ : KGame) 0 (1) (1) (0) (by decide) (by decide) (by decide)]
    norm_num
  simp only [prior_scores]
  rw [hcp, hchild, hccp, hcand]
  simp only [List.map_cons, List.map_nil]
  rw [hs0, hs1, hs2, hs3, hs4, hs5, he0, he1, he2, he3, he4, he5]

theorem prior_scores_init : prior_scores initGame (some 2) = [(some 0, (1 / 10 : ℚ)), (some 1, (1 / 10 : ℚ)), (some 3, (1 / 5 : ℚ)), (some 4, (11 / 10 : ℚ)), (some 5, (11 / 10 : ℚ))] := by
  have hcp : (initGame).current_player = 0 := rfl
  have hchild : perform_move initGame (some 2) 0 = (⟨[4, 4, 0, 5, 5, 5, 1, 4, 4, 4, 4, 4, 4, 0], 0, some 6⟩ : KGame) := by decide
  have hccp : ((⟨[4, 4, 0, 5, 5, 5, 1, 4, 4, 4, 4, 4, 4, 0], 0, some 6⟩ : KGame)).current_player = 0 := rfl
  have hcand : valid_moves (⟨[4, 4, 0, 5, 5, 5, 1, 4, 4, 4, 4, 4, 4, 0], 0, some 6⟩ : KGame) 0 = [some 0, some 1, some 3, some 4, some 5] := by decide
  have hs0 : perform_move (⟨[4, 4, 0, 5, 5, 5, 1, 4, 4, 4, 4, 4, 4, 0], 0, some 6⟩ : KGame) (some 0) 0 = (⟨[0, 5, 1, 6, 6, 5, 1, 4, 4, 4, 4, 4, 4, 0], 1, some 4⟩ : KGame) := by decide
  have he0 : evaluate (⟨[0, 5, 1, 6, 6, 5, 1, 4, 4, 4, 4, 4, 4, 0], 1, some 4⟩ : KGame) 0 = 1 / 10 := by
    rw [evaluate_eq (⟨[0, 5, 1, 6, 6, 5, 1, 4, 4, 4, 4, 4, 4, 0], 1, some 4⟩ : KGame) 0 (1) (-1) (-1) (by decide) (by decide) (by decide)]
    norm_num
  have hs1 : perform_move (⟨[4, 4, 0, 5, 5, 5, 1, 4, 4, 4, 4, 4, 4, 0], 0, some 6⟩ : KGame) (some 1) 0 = (⟨[4, 0, 1, 6, 6, 6, 1, 4, 4, 4, 4, 4, 4, 0], 1, some 5⟩ : KGame) := by decide
  have he1 : evaluate (⟨[4, 0, 1, 6, 6, 6, 1, 4, 4, 4, 4, 4, 4, 0], 1, some 5⟩ : KGame) 0 = 1 / 10 := by
    rw [evaluate_eq (⟨[4, 0, 1, 6, 6, 6, 1, 4, 4, 4, 4, 4, 4, 0], 1, some 5⟩ : KGame) 0 (1) (-1) (-1) (by decide) (by decide) (by decide)]
    norm_num
  have hs3 : perform_move (⟨[4, 4, 0, 5, 5, 5, 1, 4, 4, 4, 4, 4, 4, 0], 0, some 6⟩ : KGame) (some 3) 0 = (⟨[4, 4, 0, 0, 6, 6, 2, 5, 5, 4, 4, 4, 4, 0], 1, some 8⟩ : KGame) := by decide
  have he3 : evaluate (⟨[4, 4, 0, 0, 6, 6, 2, 5, 5, 4, 4, 4, 4, 0], 1, some 8⟩ : KGame) 0 = 1 / 5 := by
    rw [evaluate_eq (⟨[4, 4, 0, 0, 6, 6, 2, 5, 5, 4, 4, 4, 4, 0], 1, some 8⟩ : KGame) 0 (2) (-2) (-2) (by decide) (by decide) (by decide)]
    norm_num
  have hs4 : perform_move (⟨[4, 4, 0, 5, 5, 5, 1, 4, 4, 4, 4, 4, 4, 0], 0, some 6⟩ : KGame) (some 4) 0 = (⟨[4, 4, 0, 5, 0, 6, 2, 5, 5, 5, 4, 4, 4, 0], 1, some 9⟩ : KGame) := by decide
  have he4 : evaluate (⟨[4, 4, 0, 5, 0, 6, 2, 5, 5, 5, 4, 4, 4, 0], 1, some 9⟩ : KGame) 0 = 11 / 10 := by
    rw [evaluate_eq (⟨[4, 4, 0, 5, 0, 6, 2, 5, 5, 5, 4, 4, 4, 0], 1, some 9⟩ : KGame) 0 (2) (-1) (-1) (by decide) (by decide) (by decide)]
    norm_num
  have hs5 : perform_move (⟨[4, 4, 0, 5, 5, 5, 1, 4, 4, 4, 4, 4, 4, 0], 0, some 6⟩ : KGame) (some 5) 0 = (⟨[4, 4, 0, 5, 5, 0, 2, 5, 5, 5, 5, 4, 4, 0], 1, some 10⟩ : KGame) := by decide
  have he5 : evaluate (⟨[4, 4, 0, 5, 5, 0, 2, 5, 5, 5, 5, 4, 4, 0], 1, some 10⟩ : KGame) 0 = 11 / 10 := by
    rw [evaluate_eq (⟨[4, 4, 0, 5, 5, 0, 2, 5, 5, 5, 5, 4, 4, 0], 1, some 10⟩ : KGame) 0 (2) (-1) (-1) (by decide) (by decide) (by decide)]
    norm_num
  simp only [prior_scores]
  rw [hcp, hchild, hccp, hcand]
  simp only [List.map_cons, List.map_nil]
  rw [hs0, hs1, hs3, hs4, hs5, he0, he1, he3, he4, he5]

theorem inner_find_mem (l : List (Move × ℚ)) (a : Move) (v : ℚ)
    (h : inner_find l a = some v) : ∃ p ∈ l, p.2 = v := by
  induction l with
  | nil => simp [inner_find] at h
  | cons hd tl ih =>
    simp only [inner_find] at h
    split at h
    · exact ⟨hd, List.mem_cons_self _ _, Option.some.inj h⟩
    · obtain ⟨p, hp, hv⟩ := ih h
      exact ⟨p, List.mem_cons_of_mem _ hp, hv⟩

theorem expand_prior_c5g : expand_prior c5g (some 5) = 17 / 16 := by
  have hcp : c5g.current_player = 0 := rfl
  have hchild : perform_move c5g (some 5) 0 =
      (⟨[1, 1, 3, 3, 4, 1, 2, 6, 10, 3, 6, 4, 2, 2], 0, some 6⟩ : KGame) := by decide
  have hcand : valid_moves
      (⟨[1, 1, 3, 3, 4, 1, 2, 6, 10, 3, 6, 4, 2, 2], 0, some 6⟩ : KGame) 0 =
      [some 0, some 1, some 2, some 3, some 4, some 5] := by decide
  simp only [expand_prior]
  rw [hcp, hchild]
  rw [show ((⟨[1, 1, 3, 3, 4, 1, 2, 6, 10, 3, 6, 4, 2, 2], 0, some 6⟩ :
      KGame)).current_player = 0 from rfl]
  rw [hcand, prior_scores_c5g]
  norm_num [inner_find, List.map_cons, List.map_nil, List.sum_cons, List.sum_nil]

/-- C5: when PUCT is enabled, the prior stored in `MCTSNode.expand` is the
expanded move's evaluator score divided by the sum of all candidate moves'
scores (uniform fallback when the total is not positive); it lies in `[0, 1]`
provided every candidate's evaluator score is nonnegative.  Without that
proviso the bound fails — see the counterexample, where a negative-score
candidate drives the prior above 1. -/
theorem C5_expand_prior_unit_interval (g : KGame) (mv : Move)
    (hpos : ∀ pr ∈ prior_scores g mv, 0 ≤ pr.2) :
    0 ≤ expand_prior g mv ∧ expand_prior g mv ≤ 1 := by
  simp only [expand_prior]
  by_cases htot : 0 < ((prior_scores g mv).map Prod.snd).sum
  · rw [if_pos htot]
    have hnum0 : 0 ≤ (inner_find (prior_scores g mv) mv).getD 0 ∧
        (inner_find (prior_scores g mv) mv).getD 0 ≤
          ((prior_scores g mv).map Prod.snd).sum := by
      cases hfind : inner_find (prior_scores g mv) mv with
      | none => exact ⟨le_refl 0, le_of_lt htot⟩
      | some v =>
        obtain ⟨p, hp, hv⟩ := inner_find_mem _ _ _ hfind
        have hvmem : v ∈ (prior_scores g mv).map Prod.snd :=
          List.mem_map.mpr ⟨p, hp, hv⟩
        have hall : ∀ x ∈ (prior_scores g mv).map Prod.snd, 0 ≤ x := by
          intro x hx
          obtain ⟨q, hq, hxq⟩ := List.mem_map.mp hx
          exact hxq ▸ hpos q hq
        exact ⟨hv ▸ hpos p hp, List.single_le_sum hall v hvmem⟩
    exact ⟨div_nonneg hnum0.1 (le_of_lt htot), (div_le_one htot).mpr hnum0.2⟩
  · rw [if_neg htot]
    have hne : valid_moves (perform_move g mv g.current_player)
        (perform_move g mv g.current_player).current_player ≠ [] :=
      valid_moves_ne_nil _ _
    have hlen1 : 1 ≤ (valid_moves (perform_move g mv g.current_player)
        (perform_move g mv g.current_player).current_player).length :=
      List.length_pos.mpr hne
    have hlenq : (1 : ℚ) ≤ ((valid_moves (perform_move g mv g.current_player)
        (perform_move g mv g.current_player).current_player).length : ℚ) := by
      exact_mod_cast hlen1
    refine ⟨div_nonneg zero_le_one (le_trans zero_le_one hlenq), ?_⟩
    rw [div_le_one (lt_of_lt_of_le one_pos hlenq)]
    exact hlenq

/-- C5 witness: at the initial position, expanding move 2 yields candidates
whose evaluator scores are all nonnegative, and the stored prior indeed lies
in `[0, 1]`. -/
theorem C5_expand_prior_unit_interval_witness :
    (∀ pr ∈ prior_scores initGame (some 2), 0 ≤ pr.2) ∧
      0 ≤ expand_prior initGame (some 2) ∧ expand_prior initGame (some 2) ≤ 1 := by
  have hsc : ∀ pr ∈ prior_scores initGame (some 2), 0 ≤ pr.2 := by
    rw [prior_scores_init]
    intro pr hpr
    fin_cases hpr <;> norm_num
  exact ⟨hsc, C5_expand_prior_unit_interval initGame (some 2) hsc⟩

/-- C5 counterexample: in position `c5g`, move 5 is legal for the player to
move, yet the PUCT prior computed for it is `17/16 > 1` — three candidates
carry the negative evaluator score `-7/10`, so the positive total `8/5` is
smaller than the expanded move's own score `17/10`.  The spec's claim that
every stored prior lies in `[0, 1]` is therefore false. -/
theorem C5_counterexample_prior_above_one :
    (some 5) ∈ valid_moves c5g c5g.current_player ∧
      1 < expand_prior c5g (some 5) := by
  refine ⟨by decide, ?_⟩
  rw [expand_prior_c5g]
  norm_num

theorem tt_find_append_left (T L : TTable) (k : SKey) (e : TEntry)
    (h : tt_find T k = some e) : tt_find (T ++ L) k = some e := by
  induction T with
  | nil => simp [tt_find] at h
  | cons kv rest ih =>
    rw [List.cons_append]
    simp only [tt_find] at h ⊢
    split at h
    · rename_i hk
      rw [if_pos hk]
      exact h
    · rename_i hk
      rw [if_neg hk]
      exact ih h

theorem inner_set_keys (e : TEntry) (a : Move) (v : ℚ) :
    (inner_set e a v).map Prod.fst = e.map Prod.fst := by
  induction e with
  | nil => rfl
  | cons av rest ih =>
    simp only [inner_set, List.map_cons] at ih ⊢
    by_cases h : av.1 = a
    · rw [if_pos h]
      simp [ih]
    · rw [if_neg h]
      simp [ih]

theorem tt_set_keys (T : TTable) (k : SKey) (a : Move) (v : ℚ) :
    (tt_set T k a v).map Prod.fst = T.map Prod.fst := by
  induction T with
  | nil => rfl
  | cons kv rest ih =>
    simp only [tt_set, List.map_cons] at ih ⊢
    by_cases h : kv.1 = k
    · rw [if_pos h]
      simp [ih]
    · rw [if_neg h]
      simp [ih]

theorem tt_find_tt_set (T : TTable) (k k' : SKey) (a : Move) (v : ℚ)
    (e : TEntry) (h : tt_find T k' = some e) :
    ∃ e2, tt_find (tt_set T k a v) k' = some e2 ∧
      e2.map Prod.fst = e.map Prod.fst := by
  induction T with
  | nil => simp [tt_find] at h
  | cons kv rest ih =>
    simp only [tt_find] at h
    simp only [tt_set, List.map_cons]
    by_cases hk' : kv.1 = k'
    · rw [if_pos hk'] at h
      by_cases hk : kv.1 = k
      · rw [if_pos hk]
        simp only [tt_find]
        rw [if_pos hk']
        refine ⟨inner_set kv.2 a v, rfl, ?_⟩
        rw [inner_set_keys, Option.some.inj h]
      · rw [if_neg hk]
        simp only [tt_find]
        rw [if_pos hk']
        refine ⟨kv.2, rfl, ?_⟩
        rw [Option.some.inj h]
    · rw [if_neg hk'] at h
      obtain ⟨e2, he2, hkeys⟩ := ih h
      by_cases hk : kv.1 = k
      · rw [if_pos hk]
        simp only [tt_find]
        rw [if_neg hk']
        exact ⟨e2, he2, hkeys⟩
      · rw [if_neg hk]
        simp only [tt_find]
        rw [if_neg hk']
        exact ⟨e2, he2, hkeys⟩

theorem ubfm_iter_table (evalFn : KGame → ℕ → ℚ) :
    ∀ (fuel : ℕ) (s : KGame) (p : ℕ) (T : TTable) (v : ℚ) (T' : TTable),
      unbounded_minimax_iteration evalFn fuel s p T = some (v, T') →
      (T'.map Prod.fst = T.map Prod.fst ∨
        ∃ k, tt_find T k = none ∧ T'.map Prod.fst = T.map Prod.fst ++ [k]) ∧
      ∀ k e, tt_find T k = some e →
        ∃ e2, tt_find T' k = some e2 ∧ e2.map Prod.fst = e.map Prod.fst := by
  intro fuel
  induction fuel with
  | zero =>
    intro s p T v T' h
    simp [unbounded_minimax_iteration] at h
  | succ n ih =>
    intro s p T v T' h
    simp only [unbounded_minimax_iteration] at h
    by_cases hterm : is_terminal s = true
    · rw [if_pos hterm] at h
      have hT : T' = T := (congrArg Prod.snd (Option.some.inj h)).symm
      subst hT
      exact ⟨Or.inl rfl, fun k e he => ⟨e, he, rfl⟩⟩
    · rw [if_neg hterm] at h
      split at h
      · rename_i hfind
        have hT := congrArg Prod.snd (Option.some.inj h)
        subst hT
        constructor
        · right
          refine ⟨from_board_to_state s, hfind, ?_⟩
          simp [tt_insert]
        · intro k e he
          refine ⟨e, ?_, rfl⟩
          simp only [tt_insert]
          exact tt_find_append_left T _ k e he
      · rename_i inner hfind
        split at h
        · exact Option.noConfusion h
        · rename_i vT hrec
          have hT := congrArg Prod.snd (Option.some.inj h)
          subst hT
          obtain ⟨hkeys0, hpres0⟩ :=
            ih (perform_move s (best_action inner p) s.current_player) p T
              vT.1 vT.2 (by rw [hrec])
          constructor
          · rw [tt_set_keys]
            exact hkeys0
          · intro k e he
            obtain ⟨e1, he1, hk1⟩ := hpres0 k e he
            obtain ⟨e2, he2, hk2⟩ :=
              tt_find_tt_set vT.2 (from_board_to_state s) k
                (best_action inner p) vT.1 e1 he1
            exact ⟨e2, he2, hk2.trans hk1⟩

theorem map_fst_pair {α β : Type} (f : α → β) (l : List α) :
    (l.map (fun a => (a, f a))).map Prod.fst = l := by
  induction l with
  | nil => rfl
  | cons x xs ih => simp only [List.map_cons, ih]

theorem ubfm_iter_unseen (evalFn : KGame → ℕ → ℚ) (fuel : ℕ) (s : KGame)
    (p : ℕ) (T : TTable) (hterm : is_terminal s = false)
    (hfind : tt_find T (from_board_to_state s) = none) :
    ∃ v inner, unbounded_minimax_iteration evalFn (fuel + 1) s p T =
        some (v, tt_insert T (from_board_to_state s) inner) ∧
      inner.map Prod.fst = valid_moves s s.current_player := by
  simp only [unbounded_minimax_iteration]
  rw [if_neg (by simp [hterm]), hfind]
  refine ⟨_, (valid_moves s s.current_player).map (fun a =>
    (a, evalFn (perform_move s a s.current_player) p)), rfl, ?_⟩
  exact map_fst_pair _ _

theorem foldl_choice_mem {α : Type} (f : α → α → α)
    (hf : ∀ b x, f b x = b ∨ f b x = x) :
    ∀ (l : List α) (a : α), l.foldl f a ∈ a :: l := by
  intro l
  induction l with
  | nil =>
    intro a
    simp
  | cons x xs ih =>
    intro a
    simp only [List.foldl_cons]
    rcases hf a x with h | h
    · rw [h]
      rcases List.mem_cons.mp (ih a) with h2 | h2
      · rw [h2]
        exact List.mem_cons_self _ _
      · exact List.mem_cons_of_mem _ (List.mem_cons_of_mem _ h2)
    · rw [h]
      exact List.mem_cons_of_mem _ (ih x)

theorem best_action_mem (inner : TEntry) (p : ℕ)
    (h : inner.map Prod.fst ≠ []) :
    best_action inner p ∈ inner.map Prod.fst := by
  simp only [best_action]
  cases hm : inner.map Prod.fst with
  | nil => exact absurd hm h
  | cons a rest =>
    dsimp only
    split
    · exact foldl_choice_mem
        (fun best x => if inner_val inner best < inner_val inner x then x else best)
        (fun b x => by
          by_cases hc : inner_val inner b < inner_val inner x
          · exact Or.inr (if_pos hc)
          · exact Or.inl (if_neg hc)) rest a
    · exact foldl_choice_mem
        (fun best x => if inner_val inner x < inner_val inner best then x else best)
        (fun b x => by
          by_cases hc : inner_val inner x < inner_val inner b
          · exact Or.inr (if_pos hc)
          · exact Or.inl (if_neg hc)) rest a

theorem ubfm_run_table_root (evalFn : KGame → ℕ → ℚ) (fuel : ℕ)
    (root : KGame) (p : ℕ) :
    ∀ (n : ℕ) (T T' : TTable) (inner : TEntry),
      tt_find T (from_board_to_state root) = some inner →
      ubfm_run_table evalFn fuel root p n T = some T' →
      ∃ inner2, tt_find T' (from_board_to_state root) = some inner2 ∧
        inner2.map Prod.fst = inner.map Prod.fst := by
  intro n
  induction n with
  | zero =>
    intro T T' inner hfind hrun
    simp only [ubfm_run_table] at hrun
    exact ⟨inner, Option.some.inj hrun ▸ hfind, rfl⟩
  | succ m ih =>
    intro T T' inner hfind hrun
    simp only [ubfm_run_table] at hrun
    split at hrun
    · exact Option.noConfusion hrun
    · rename_i vT hrec
      obtain ⟨_, hpres⟩ :=
        ubfm_iter_table evalFn fuel root p T vT.1 vT.2 (by rw [hrec])
      obtain ⟨e1, he1, hk1⟩ := hpres _ inner hfind
      obtain ⟨e2, he2, hk2⟩ := ih vT.2 T' e1 he1 hrun
      exact ⟨e2, he2, hk2.trans hk1⟩

/-- C6 (amended): a call to `unbounded_minimax_iteration` that returns adds
AT MOST one new state entry to the transposition table — the key list is
either unchanged or extended by exactly one previously absent key — and
every entry already present survives with its action set intact, so a
visited state's children are never re-evaluated from scratch.  The spec's
stronger dichotomy ("gains exactly one new entry or deepens one branch") is
refuted by the counterexample, where an iteration on a seen state whose
best branch ends at a terminal position leaves the table exactly
unchanged. -/
theorem C6_iteration_table_growth (evalFn : KGame → ℕ → ℚ) (fuel : ℕ)
    (s : KGame) (p : ℕ) (T : TTable) (v : ℚ) (T' : TTable)
    (h : unbounded_minimax_iteration evalFn fuel s p T = some (v, T')) :
    (T'.map Prod.fst = T.map Prod.fst ∨
      ∃ k, tt_find T k = none ∧ T'.map Prod.fst = T.map Prod.fst ++ [k]) ∧
    ∀ k e, tt_find T k = some e →
      ∃ e2, tt_find T' k = some e2 ∧ e2.map Prod.fst = e.map Prod.fst :=
  ubfm_iter_table evalFn fuel s p T v T' h

/-- C6 witness: grounding the unseen non-terminal state `ubfmS` in the
empty table adds exactly its one entry, producing `ubfmT`. -/
theorem C6_iteration_table_growth_witness :
    (unbounded_minimax_iteration evalZero 2 ubfmS 0 [] = some (0, ubfmT)) ∧
    ((ubfmT.map Prod.fst = ([] : TTable).map Prod.fst ∨
      ∃ k, tt_find ([] : TTable) k = none ∧
        ubfmT.map Prod.fst = ([] : TTable).map Prod.fst ++ [k]) ∧
    ∀ k e, tt_find ([] : TTable) k = some e →
      ∃ e2, tt_find ubfmT k = some e2 ∧ e2.map Prod.fst = e.map Prod.fst) :=
  ⟨by decide, C6_iteration_table_growth evalZero 2 ubfmS 0 [] 0 ubfmT (by decide)⟩

/-- C6 counterexample: `ubfmS` is non-terminal and already stored in
`ubfmT`, yet one full iteration returns with the table exactly unchanged —
it neither adds a state entry nor deepens the stored tree, because the best
branch immediately reaches a terminal state that is evaluated without being
recorded.  This refutes the claimed dichotomy. -/
theorem C6_counterexample_no_growth :
    is_terminal ubfmS = false ∧
      unbounded_minimax_iteration evalZero 5 ubfmS 0 ubfmT =
        some (0, ubfmT) := by
  decide

/-- C7 (amended): `UBFM.run` returns a legal move for the root only when at
least one iteration completes within the budget: if the root is
non-terminal and the timed loop finishes `n ≥ 1` iterations, the root's
table entry exists and `run` returns one of the root's valid moves.  With a
budget allowing zero iterations the root key is absent from the table and
`best_action` raises an uncaught `KeyError` (modelled `none`) — see the
counterexample — so the claim's "never fails fatally" is false. -/
theorem C7_run_returns_legal_move (evalFn : KGame → ℕ → ℚ) (fuel n : ℕ)
    (root : KGame) (p : ℕ) (T : TTable)
    (hterm : is_terminal root = false) (hn : 1 ≤ n)
    (hrun : ubfm_run_table evalFn (fuel + 1) root p n [] = some T) :
    ∃ mv, ubfm_run evalFn (fuel + 1) n root p = some mv ∧
      mv ∈ valid_moves root root.current_player := by
  have hrun0 := hrun
  cases n with
  | zero => omega
  | succ m =>
    obtain ⟨v0, inner0, hiter, hkeys0⟩ :=
      ubfm_iter_unseen evalFn fuel root p [] hterm rfl
    simp only [ubfm_run_table] at hrun
    split at hrun
    · exact Option.noConfusion hrun
    · rename_i vT hrec
      rw [hiter] at hrec
      have hT2 : vT.2 = tt_insert [] (from_board_to_state root) inner0 :=
        (congrArg Prod.snd (Option.some.inj hrec)).symm
      rw [hT2] at hrun
      have hfind0 : tt_find (tt_insert [] (from_board_to_state root) inner0)
          (from_board_to_state root) = some inner0 := by
        simp [tt_insert, tt_find]
      obtain ⟨inner2, hfind2, hkeys2⟩ :=
        ubfm_run_table_root evalFn (fuel + 1) root p m _ T inner0 hfind0 hrun
      have hmem : best_action inner2 p ∈ inner2.map Prod.fst :=
        best_action_mem inner2 p (by
          rw [hkeys2, hkeys0]
          exact valid_moves_ne_nil _ _)
      rw [hkeys2, hkeys0] at hmem
      refine ⟨best_action inner2 p, ?_, hmem⟩
      simp only [ubfm_run, hrun0, hfind2]

/-- C7 witness: on the two-pit position `ubfmR` one iteration fits in the
budget, the loop produces the one-entry table shown, and `run` returns the
root's single legal move. -/
theorem C7_run_returns_legal_move_witness :
    is_terminal ubfmR = false ∧ 1 ≤ 1 ∧
      ubfm_run_table evalZero 2 ubfmR 0 1 [] =
        some [(([1, 0, 0, 0, 0, 0, 0, 1, 0, 0, 0, 0, 0, 0], 0), [(some 0, 0)])] ∧
      ∃ mv, ubfm_run evalZero 2 1 ubfmR 0 = some mv ∧
        mv ∈ valid_moves ubfmR ubfmR.current_player :=
  ⟨by decide, le_refl 1, by decide,
    C7_run_returns_legal_move evalZero 1 1 ubfmR 0
      [(([1, 0, 0, 0, 0, 0, 0, 1, 0, 0, 0, 0, 0, 0], 0), [(some 0, 0)])]
      (by decide) (le_refl 1) (by decide)⟩

/-- C7 counterexample: when the wall-clock budget allows zero iterations,
the transposition table is still empty at the final lookup, so
`best_action` on the missing root key raises an uncaught `KeyError`
(modelled `none`): `run` fails fatally instead of returning a best-effort
move.  This holds already at the initial position with the repository's
evaluator. -/
theorem C7_counterexample_keyerror :
    ubfm_run evaluate 5 0 initGame 0 = none := rfl
